import Mathlib

/-!
Verification of the Retention-AI pipeline's orchestration layer.

The definitions below are shallow embeddings of the Python sources:
- `scripts/process_new_data.py` (dataset merger, split, counters, scheduler),
- `scripts/process_upload.py` (upload ingestor and identifier assignment),
- `scripts/reindex_user_ids.py` (identifier reindexer),
- `scripts/automated_pipeline.py` (scheduling-loop retrain path).
CSV tables are modelled as explicit column lists plus positional rows,
file systems as explicit option/association values, and subprocess
outcomes as boolean oracles.
-/

namespace RetentionAI

/-! ## Dataset merger (`process_new_data.py`, `append_or_create_csv`) -/

/-- Pandas dtype, as far as the merger inspects it: `object` ('O') vs numeric. -/
inductive Dtype where
  | numeric
  | object
deriving DecidableEq

/-- A cell value of a CSV table. -/
inductive Value where
  | num (n : Int)
  | str (s : String)
deriving DecidableEq

/-- Default fill used by `append_or_create_csv` for a missing column:
`0 if dtype != 'O' else ''`. -/
def defaultVal : Dtype → Value
  | .numeric => .num 0
  | .object => .str ""

/-- A named, typed column of a DataFrame. -/
structure Col where
  name : String
  dtype : Dtype
deriving DecidableEq

/-- A DataFrame: ordered columns and positional rows. -/
structure Table where
  cols : List Col
  rows : List (List Value)
deriving DecidableEq

def colNames (cs : List Col) : List String := cs.map Col.name

/-- Value of column `n` in a row, pairing columns and cells positionally
(missing lookups yield an arbitrary default, as they cannot occur on
well-formed tables). -/
def valueAt : List Col → List Value → String → Value
  | [], _, _ => .num 0
  | _ :: _, [], _ => .num 0
  | c :: cs, v :: vs, n => if c.name = n then v else valueAt cs vs n

/-- Well-formed table: distinct column names, rectangular rows. -/
def Table.wf (t : Table) : Prop :=
  (colNames t.cols).Nodup ∧ ∀ r ∈ t.rows, r.length = t.cols.length

/-- The columns of `other` that `t` lacks (`if col not in existing_df.columns`). -/
def missingCols (t other : List Col) : List Col :=
  other.filter (fun c => decide (c.name ∉ colNames t))

/-- Add to `t` every column of `otherCols` it lacks, each filled with the
type-appropriate default (`existing_df[col] = 0 if new_df[col].dtype != 'O' else ''`). -/
def addMissing (t : Table) (otherCols : List Col) : Table :=
  { cols := t.cols ++ missingCols t.cols otherCols
    rows := t.rows.map (fun r => r ++ (missingCols t.cols otherCols).map (fun c => defaultVal c.dtype)) }

/-- Project a row of a source schema onto a target column list by name
(`existing_df[new_df.columns]`). -/
def reorderRow (srcCols : List Col) (row : List Value) (tgtCols : List Col) : List Value :=
  tgtCols.map (fun c => valueAt srcCols row c.name)

/-- Key of a row: its `userid` cell. -/
def keyOf (cols : List Col) (row : List Value) : Value :=
  valueAt cols row "userid"

/-- `drop_duplicates(subset=['userid'], keep='last')`: keep a row iff no
later row has the same key. -/
def dedupLast (f : List Value → Value) : List (List Value) → List (List Value)
  | [] => []
  | r :: rs =>
    if ∃ r2 ∈ rs, f r2 = f r then dedupLast f rs else r :: dedupLast f rs

/-- Last element of a list satisfying `p`, if any. -/
def findLast (p : List Value → Prop) [DecidablePred p] : List (List Value) → Option (List Value)
  | [] => none
  | r :: rs =>
    match findLast p rs with
    | some r2 => some r2
    | none => if p r then some r else none

/-- The merge performed by `append_or_create_csv` when the target table exists
and is non-empty: align columns to their union with defaults, concatenate
existing rows (projected to the batch's column order) before batch rows,
then deduplicate by `userid` keeping the last occurrence. -/
def mergeTables (existing batch : Table) : Table :=
  let existing2 := addMissing existing batch.cols
  let batch2 := addMissing batch existing.cols
  let cols := batch2.cols
  let exRows := existing2.rows.map (fun r => reorderRow existing2.cols r cols)
  let allRows := exRows ++ batch2.rows
  { cols := cols
    rows := if "userid" ∈ colNames cols then dedupLast (keyOf cols) allRows else allRows }

/-- Name of the fallback file written on a merge error:
`f"{target_path.stem}_append_error_{int(time.time())}.csv"`. -/
structure FallbackName where
  stem : String
  ts : Nat
deriving DecidableEq

/-- Outcome of `append_or_create_csv` on the file system: final target
content, fallback file (if any), and whether the append-error warning
was printed. -/
structure FsOutcome where
  target : Option Table
  fallback : Option (FallbackName × Table)
  warned : Bool
deriving DecidableEq

/-- `append_or_create_csv(new_df, target_path)`: merge into the existing
table, or write the batch verbatim when the target is missing or empty;
on any exception leave the target as it was, write the batch to the
timestamp-suffixed fallback file and print a warning. `raises` is the
oracle for "some step of the try-block raised". -/
def append_or_create_csv (stem : String) (target : Option Table) (batch : Table)
    (raises : Bool) (ts : Nat) : FsOutcome :=
  if raises then
    { target := target, fallback := some (⟨stem, ts⟩, batch), warned := true }
  else
    match target with
    | some existing => { target := some (mergeTables existing batch), fallback := none, warned := false }
    | none => { target := some batch, fallback := none, warned := false }

/-! ## Batch split (`process_new_data.py`, `split_dataset`) -/

/-- A row of the preprocessed uploads batch: named numeric cells plus the
optional free-text review (`none` models NaN). -/
structure BRow where
  cells : List (String × Int)
  review : Option String
deriving DecidableEq

/-- Python's `col.startswith("Day_")`, modelled on the character lists so
it stays kernel-computable. -/
def strStartsWith (pre s : String) : Bool := pre.data.isPrefixOf s.data

/-- `df[day_columns] = df[day_columns].clip(upper=300)` for all columns whose
name starts with `Day_`. -/
def capDayCells (cells : List (String × Int)) : List (String × Int) :=
  cells.map (fun c => if strStartsWith "Day_" c.1 then (c.1, min c.2 300) else c)

def capDays (r : BRow) : BRow := { r with cells := capDayCells r.cells }

/-- `df['review'].notna() & df['review'].str.strip().ne("")`. -/
def hasReview : Option String → Bool
  | none => false
  | some s => decide (s.trim ≠ "")

/-- Counts returned by `split_dataset`. -/
structure SplitCounts where
  total : Nat
  with_reviews : Nat
deriving DecidableEq

/-- `split_dataset`: cap Day_ columns at 300, keep reviewed rows for Model B,
drop the review column for Model A, and report the counts. Returns
(model A table rows, model B table rows, counts). -/
def split_dataset (batch : List BRow) : List BRow × List BRow × SplitCounts :=
  let df := batch.map capDays
  let model_b_df := df.filter (fun r => hasReview r.review)
  let model_a_df := df.map (fun r => { r with review := none })
  (model_a_df, model_b_df, ⟨df.length, model_b_df.length⟩)

/-- `pd.concat([main_df, uploads_df])` in `process_upload.py`: the
authoritative dataset receives the batch rows with their original,
uncapped cell values. -/
def ingest_main_rows (main batch : List BRow) : List BRow := main ++ batch

/-! ## Counters and retrain scheduling (`process_new_data.py`,
`automated_pipeline.py`) -/

def FREQ_MODEL_A : Nat := 20
def FREQ_MODEL_B : Nat := 10

/-- The persisted `training_counters.json` record. Timestamps are absent
(`none`) until some writer sets them. -/
structure Counters where
  model_a : Nat
  model_b : Nat
  last_retrain_a : Option Nat
  last_retrain_b : Option Nat
deriving DecidableEq

/-- `counters['model_a'] += total; counters['model_b'] += with_reviews`. -/
def update_counters (c : Counters) (total withReviews : Nat) : Counters :=
  { c with model_a := c.model_a + total, model_b := c.model_b + withReviews }

/-- Observable steps the orchestrator takes, in order. -/
inductive Action where
  | trainModelA
  | trainModelB
  | skipModelA
  | skipModelB
  | churnPrediction
  | explainAllUsers
  | explainableAIRefresh
deriving DecidableEq

/-- Environment oracles: training-table file state and subprocess outcomes. -/
structure Env where
  tableA_hasData : Bool
  tableB_hasData : Bool
  trainA_succeeds : Bool
  trainB_succeeds : Bool
deriving DecidableEq

structure ProcessResult where
  counters : Counters
  actions : List Action
deriving DecidableEq

/-- The tail of `process_new_data()` after `split_dataset` returned counts:
increment the counters, conditionally train each model (skipping when its
training table is missing or empty, resetting the counter only when the
training subprocess succeeds), save counters, then unconditionally run
`churn_prediction`, `explain_user --all` and `explinableAI`. -/
def process_new_data_after_split (c0 : Counters) (total withReviews : Nat)
    (env : Env) : ProcessResult :=
  let c1 := update_counters c0 total withReviews
  let stepA : Counters × List Action :=
    if FREQ_MODEL_A ≤ c1.model_a then
      if env.tableA_hasData then
        if env.trainA_succeeds then ({ c1 with model_a := 0 }, [.trainModelA])
        else (c1, [.trainModelA])
      else (c1, [.skipModelA])
    else (c1, [])
  let c2 := stepA.1
  let stepB : Counters × List Action :=
    if FREQ_MODEL_B ≤ c2.model_b then
      if env.tableB_hasData then
        if env.trainB_succeeds then ({ c2 with model_b := 0 }, [.trainModelB])
        else (c2, [.trainModelB])
      else (c2, [.skipModelB])
    else (c2, [])
  { counters := stepB.1
    actions := stepA.2 ++ stepB.2 ++ [.churnPrediction, .explainAllUsers, .explainableAIRefresh] }

inductive WhichModel where
  | A
  | B
deriving DecidableEq

def trainAction : WhichModel → Action
  | .A => .trainModelA
  | .B => .trainModelB

structure RetrainResult where
  counters : Counters
  actions : List Action
  ok : Bool
deriving DecidableEq

/-- `automated_pipeline.retrain_model`: run the training script; on success
set the model's last-retrain timestamp to `now`, reset its counter, then run
`churn_prediction`, and only if that succeeds run the explainer and report
overall success. On training failure nothing else runs and the counters
file is untouched. -/
def retrain_model (m : WhichModel) (c : Counters) (train_ok churn_ok : Bool)
    (now : Nat) : RetrainResult :=
  if train_ok then
    let c2 :=
      match m with
      | .A => { c with model_a := 0, last_retrain_a := some now }
      | .B => { c with model_b := 0, last_retrain_b := some now }
    if churn_ok then
      { counters := c2, actions := [trainAction m, .churnPrediction, .explainableAIRefresh], ok := true }
    else
      { counters := c2, actions := [trainAction m, .churnPrediction], ok := false }
  else
    { counters := c, actions := [trainAction m], ok := false }

/-! ## Upload ingestion (`process_upload.py`, `process_user_uploads`) -/

/-- Starting userid for a fresh batch: `int(main_df['userid'].max()) + 1`
when the main dataset exists and is non-empty, else the fixed base 2000.
The main dataset is modelled by its userid column. -/
def newIdStart (main : List Int) : Int :=
  match main with
  | [] => 2000
  | x :: xs => xs.foldl max x + 1

/-- `range(new_userid_start, new_userid_start + len(uploads_df))`. -/
def assignIds (main : List Int) (n : Nat) : List Int :=
  (List.range n).map (fun i : Nat => newIdStart main + (i : Int))

/-- One ingestion step: any userids supplied in the batch are dropped and
fresh contiguous ids are assigned, then appended to the main dataset.
Returns (new main dataset ids, ids assigned to this batch). -/
def ingestIds (main : List Int) (batchSupplied : List (Option Int)) : List Int × List Int :=
  let fresh := assignIds main batchSupplied.length
  (main ++ fresh, fresh)

/-- Ingest a sequence of batches, collecting the ids assigned to each. -/
def runIngest (main : List Int) : List (List (Option Int)) → List Int × List (List Int)
  | [] => (main, [])
  | b :: bs =>
    let step := ingestIds main b
    let rest := runIngest step.1 bs
    (rest.1, step.2 :: rest.2)

/-! ## Identifier reindexer (`reindex_user_ids.py`) -/

def START_ID : Int := 2000

/-- The `for oid in old_ids: id_map[oid] = next_id; next_id += 1` loop. -/
def assignNew : List Int → Int → List (Int × Int)
  | [], _ => []
  | o :: os, next => (o, next) :: assignNew os (next + 1)

/-- `build_id_map`: sort the distinct userids of the main dataset ascending
and assign consecutive new ids from `START_ID`. -/
def build_id_map (ids : List Int) : List (Int × Int) :=
  assignNew (List.insertionSort (fun a b => a ≤ b) ids.dedup) START_ID

/-- Python's `id_map.get(x, x)`: the mapped id, or `x` itself when unmapped. -/
def idMapGet (m : List (Int × Int)) (x : Int) : Int :=
  match m.find? (fun p => p.1 == x) with
  | some p => p.2
  | none => x

/-- Python's `id_map.get(x)` (no default). -/
def lookupNew (m : List (Int × Int)) (x : Int) : Option Int :=
  (m.find? (fun p => p.1 == x)).map Prod.snd

/-- The reverse map, new id to old id. -/
def invMap (m : List (Int × Int)) : List (Int × Int) :=
  m.map (fun p => (p.2, p.1))

/-- `remap_csv` on a table's userid column:
`df['userid'].map(lambda x: id_map.get(int(x), x))`. -/
def remap_userid_col (m : List (Int × Int)) (col : List Int) : List Int :=
  col.map (idMapGet m)

/-! ## Explanation-directory remap (`reindex_user_ids.py`,
`remap_explanations` and the backup in `main`) -/

/-- An explanation JSON file: the embedded `user_id` field plus the rest of
its content, abstracted as a payload tag. -/
structure ExpFile where
  user_id : Int
  payload : Nat
deriving DecidableEq

/-- The explanations directory: file names `user_<id>.json` are modelled by
the id they encode, mapped to the file stored under that name. -/
abbrev ExpDir := List (Int × ExpFile)

def dirGet (d : ExpDir) (name : Int) : Option ExpFile :=
  ((d : List (Int × ExpFile)).find? (fun p => p.1 == name)).map Prod.snd

def dirNames (d : ExpDir) : List Int :=
  (d : List (Int × ExpFile)).map Prod.fst

/-- Delete the file at `name` (`Path.unlink`). -/
def dirErase (d : ExpDir) (name : Int) : ExpDir :=
  (d : List (Int × ExpFile)).filter (fun p => !(p.1 == name))

/-- Write `f` at `name`, replacing any previous file there. -/
def dirSet (d : ExpDir) (name : Int) (f : ExpFile) : ExpDir :=
  dirErase d name ++ [(name, f)]

/-- One iteration of the `remap_explanations` loop for the glob entry `p`:
read the file (skip if gone), look up its embedded id in the map (skip if
unmapped), rewrite the `user_id` field in place, then rename the file to
the new name — deleting any file already occupying that name first.
Returns the directory and the list of names unlinked by this step. -/
def remapStep (m : List (Int × Int)) (d : ExpDir) (p : Int) : ExpDir × List Int :=
  match dirGet d p with
  | none => (d, [])
  | some f =>
    match lookupNew m f.user_id with
    | none => (d, [])
    | some newId =>
      let f2 : ExpFile := { f with user_id := newId }
      let d2 := dirSet d p f2
      if newId = p then (d2, [])
      else
        let step2 : ExpDir × List Int :=
          if (dirGet d2 newId).isSome then (dirErase d2 newId, [newId]) else (d2, [])
        (dirSet (dirErase step2.1 p) newId f2, step2.2)

/-- `remap_explanations` over the glob snapshot, threading the directory and
collecting every name that was unlinked. -/
def remap_explanations (m : List (Int × Int)) (d : ExpDir) : List Int → ExpDir × List Int
  | [] => (d, [])
  | p :: ps =>
    let s1 := remapStep m d p
    let s2 := remap_explanations m s1.1 ps
    (s2.1, s1.2 ++ s2.2)

/-- The explanation phase of `reindex_user_ids.main`: back up the whole
directory (`backup_paths(EXPLAIN_DIR.glob(...))`) and only then run
`remap_explanations`. Returns (backup copy, (final directory, deletions)). -/
def reindex_outputs (m : List (Int × Int)) (d : ExpDir) (glob : List Int) :
    ExpDir × (ExpDir × List Int) :=
  (d, remap_explanations m d glob)

/-! ## Lemmas about the merger -/

theorem valueAt_append_left (cols : List Col) (row : List Value) (cols2 : List Col)
    (row2 : List Value) (n : String) (hlen : row.length = cols.length)
    (hmem : n ∈ colNames cols) :
    valueAt (cols ++ cols2) (row ++ row2) n = valueAt cols row n := by
  induction cols generalizing row with
  | nil => simp [colNames] at hmem
  | cons c cs ih =>
    cases row with
    | nil => simp at hlen
    | cons v vs =>
      simp only [List.cons_append, valueAt]
      by_cases h : c.name = n
      · simp [h]
      · simp only [if_neg h]
        apply ih
        · simpa using hlen
        · simp [colNames] at hmem
          rcases hmem with h1 | h1
          · exact absurd h1.symm h
          · simpa [colNames] using h1

theorem valueAt_append_right (cols : List Col) (row : List Value) (cols2 : List Col)
    (row2 : List Value) (n : String) (hlen : row.length = cols.length)
    (hmem : n ∉ colNames cols) :
    valueAt (cols ++ cols2) (row ++ row2) n = valueAt cols2 row2 n := by
  induction cols generalizing row with
  | nil =>
    cases row with
    | nil => rfl
    | cons v vs => simp at hlen
  | cons c cs ih =>
    cases row with
    | nil => simp at hlen
    | cons v vs =>
      simp only [List.cons_append, valueAt]
      have hne : c.name ≠ n := by
        intro h; exact hmem (by simp [colNames, h])
      simp only [if_neg hne]
      apply ih
      · simpa using hlen
      · intro h; exact hmem (by simp [colNames]; right; simpa [colNames] using h)

theorem valueAt_reorderRow (srcCols : List Col) (row : List Value) (tgtCols : List Col)
    (n : String) (hmem : n ∈ colNames tgtCols) :
    valueAt tgtCols (reorderRow srcCols row tgtCols) n = valueAt srcCols row n := by
  induction tgtCols with
  | nil => simp [colNames] at hmem
  | cons c cs ih =>
    simp only [reorderRow, List.map_cons, valueAt]
    by_cases h : c.name = n
    · simp [h]
    · simp only [if_neg h]
      have : n ∈ colNames cs := by
        simp [colNames] at hmem
        rcases hmem with h1 | h1
        · exact absurd h1.symm h
        · simpa [colNames] using h1
      exact ih this

theorem mem_dedupLast (f : List Value → Value) (l : List (List Value))
    (r : List Value) (h : r ∈ dedupLast f l) : r ∈ l := by
  induction l with
  | nil => simp [dedupLast] at h
  | cons a rs ih =>
    simp only [dedupLast] at h
    split at h
    · exact List.mem_cons_of_mem _ (ih h)
    · rcases List.mem_cons.mp h with h1 | h1
      · simp [h1]
      · exact List.mem_cons_of_mem _ (ih h1)

theorem map_dedupLast_nodup (f : List Value → Value) (l : List (List Value)) :
    ((dedupLast f l).map f).Nodup := by
  induction l with
  | nil => simp [dedupLast]
  | cons a rs ih =>
    simp only [dedupLast]
    split
    · exact ih
    · rename_i hno
      simp only [List.map_cons, List.nodup_cons]
      refine ⟨?_, ih⟩
      intro hin
      rcases List.mem_map.mp hin with ⟨r2, hr2, hfr2⟩
      exact hno ⟨r2, mem_dedupLast f rs r2 hr2, hfr2⟩

theorem mem_map_dedupLast (f : List Value → Value) (l : List (List Value)) (k : Value) :
    k ∈ (dedupLast f l).map f ↔ k ∈ l.map f := by
  induction l with
  | nil => simp [dedupLast]
  | cons a rs ih =>
    simp only [dedupLast]
    split
    · rename_i hdup
      rcases hdup with ⟨r2, hr2, hfr2⟩
      simp only [List.map_cons, List.mem_cons]
      rw [ih]
      constructor
      · intro h; exact Or.inr h
      · rintro (h | h)
        · subst h; exact hfr2 ▸ List.mem_map_of_mem f hr2
        · exact h
    · simp only [List.map_cons, List.mem_cons]
      rw [ih]

theorem findLast_eq_some (p : List Value → Prop) [DecidablePred p]
    (l : List (List Value)) (x : List Value) (h : findLast p l = some x) :
    x ∈ l ∧ p x := by
  induction l with
  | nil => simp [findLast] at h
  | cons a rs ih =>
    simp only [findLast] at h
    rcases hr : findLast p rs with _ | y
    · rw [hr] at h
      simp only at h
      split at h
      · rcases h with h; injection h with h; subst h
        exact ⟨List.mem_cons_self _ _, by assumption⟩
      · simp at h
    · rw [hr] at h
      simp only at h
      injection h with h; subst h
      rcases ih hr with ⟨h1, h2⟩
      exact ⟨List.mem_cons_of_mem _ h1, h2⟩

theorem findLast_eq_none (p : List Value → Prop) [DecidablePred p]
    (l : List (List Value)) : findLast p l = none ↔ ∀ x ∈ l, ¬ p x := by
  induction l with
  | nil => simp [findLast]
  | cons a rs ih =>
    simp only [findLast]
    rcases hr : findLast p rs with _ | y
    · simp only
      constructor
      · intro h x hx
        split at h
        · simp at h
        · rcases List.mem_cons.mp hx with h1 | h1
          · subst h1; assumption
          · exact (ih.mp hr) x h1
      · intro h
        have : ¬ p a := h a (List.mem_cons_self _ _)
        simp [this]
    · simp only
      constructor
      · intro h; simp at h
      · intro h
        exfalso
        rcases findLast_eq_some p rs y hr with ⟨h1, h2⟩
        exact h y (List.mem_cons_of_mem _ h1) h2

theorem findLast_append (p : List Value → Prop) [DecidablePred p]
    (l1 l2 : List (List Value)) :
    findLast p (l1 ++ l2) =
      match findLast p l2 with
      | some x => some x
      | none => findLast p l1 := by
  induction l1 with
  | nil =>
    simp only [List.nil_append, findLast]
    rcases h : findLast p l2 with _ | y <;> simp
  | cons a rs ih =>
    rcases h : findLast p l2 with _ | y <;>
      simp only [h] at ih <;>
      simp [List.cons_append, findLast, ih, h]

theorem findLast_map (p q : List Value → Prop) [DecidablePred p] [DecidablePred q]
    (g : List Value → List Value) (l : List (List Value))
    (hpq : ∀ r ∈ l, (p (g r) ↔ q r)) :
    findLast p (l.map g) = (findLast q l).map g := by
  induction l with
  | nil => simp [findLast]
  | cons a rs ih =>
    have ih2 := ih (fun r hr => hpq r (List.mem_cons_of_mem a hr))
    simp only [List.map_cons, findLast, ih2]
    have hpa := hpq a (List.mem_cons_self a rs)
    rcases h : findLast q rs with _ | y
    · by_cases hq : q a
      · rw [if_pos (hpa.mpr hq), if_pos hq]
        rfl
      · rw [if_neg (fun hp => hq (hpa.mp hp)), if_neg hq]
        rfl
    · simp

theorem find?_dedupLast (f : List Value → Value) (k : Value) (l : List (List Value)) :
    (dedupLast f l).find? (fun r => decide (f r = k)) =
      findLast (fun r => f r = k) l := by
  induction l with
  | nil => simp [dedupLast, findLast]
  | cons a rs ih =>
    simp only [dedupLast, findLast]
    split
    · rename_i hdup
      rw [ih]
      rcases h : findLast (fun r => f r = k) rs with _ | y
      · simp only
        have hnot : ¬ f a = k := by
          intro hk
          rcases hdup with ⟨r2, hr2, hfr2⟩
          exact (findLast_eq_none _ rs).mp h r2 hr2 (by rw [hfr2, hk])
        simp [hnot]
      · simp
    · rename_i hno
      rcases h : findLast (fun r => f r = k) rs with _ | y
      · simp only
        by_cases hk : f a = k
        · simp [List.find?_cons, hk, ih, h]
        · simp [List.find?_cons, hk, ih, h]
      · rcases findLast_eq_some _ rs y h with ⟨h1, h2⟩
        have hne : ¬ f a = k := by
          intro hk
          exact hno ⟨y, h1, by rw [h2, hk]⟩
        simp [List.find?_cons, hne, ih, h]

theorem colNames_append (cs ds : List Col) :
    colNames (cs ++ ds) = colNames cs ++ colNames ds := by
  simp [colNames]

theorem mem_colNames_missingCols (tc oc : List Col) (n : String) :
    n ∈ colNames (missingCols tc oc) ↔ n ∈ colNames oc ∧ n ∉ colNames tc := by
  simp only [colNames, missingCols, List.mem_map, List.mem_filter,
    decide_eq_true_eq]
  constructor
  · rintro ⟨c, ⟨hc, hdec⟩, rfl⟩
    exact ⟨⟨c, hc, rfl⟩, hdec⟩
  · rintro ⟨⟨c, hc, rfl⟩, hnot⟩
    exact ⟨c, ⟨hc, hnot⟩, rfl⟩

theorem merge_cols (e b : Table) :
    (mergeTables e b).cols = b.cols ++ missingCols b.cols e.cols := rfl

theorem merge_colNames (e b : Table) (n : String) :
    n ∈ colNames (mergeTables e b).cols ↔
      n ∈ colNames e.cols ∨ n ∈ colNames b.cols := by
  rw [merge_cols, colNames_append, List.mem_append, mem_colNames_missingCols]
  by_cases hbn : n ∈ colNames b.cols <;> simp [hbn]

theorem addMissing_cols (t : Table) (oc : List Col) :
    (addMissing t oc).cols = t.cols ++ missingCols t.cols oc := rfl

theorem addMissing_rows (t : Table) (oc : List Col) :
    (addMissing t oc).rows =
      t.rows.map (fun r => r ++ (missingCols t.cols oc).map (fun c => defaultVal c.dtype)) := rfl

theorem keyOf_addMissing (t : Table) (oc : List Col) (r : List Value)
    (hlen : r.length = t.cols.length) (hu : "userid" ∈ colNames t.cols) :
    keyOf (addMissing t oc).cols
        (r ++ (missingCols t.cols oc).map (fun c => defaultVal c.dtype)) =
      keyOf t.cols r := by
  rw [addMissing_cols]
  exact valueAt_append_left t.cols r _ _ "userid" hlen hu

theorem keyOf_reorderRow (srcCols tgtCols : List Col) (r : List Value)
    (hu : "userid" ∈ colNames tgtCols) :
    keyOf tgtCols (reorderRow srcCols r tgtCols) = keyOf srcCols r :=
  valueAt_reorderRow srcCols r tgtCols "userid" hu

theorem merge_rows (e b : Table)
    (hub : "userid" ∈ colNames (addMissing b e.cols).cols) :
    (mergeTables e b).rows =
      dedupLast (keyOf (addMissing b e.cols).cols)
        ((addMissing e b.cols).rows.map
            (fun r => reorderRow (addMissing e b.cols).cols r (addMissing b e.cols).cols)
          ++ (addMissing b e.cols).rows) := by
  simp only [mergeTables]
  rw [if_pos hub]

theorem userid_mem_addMissing (b : Table) (oc : List Col)
    (hub : "userid" ∈ colNames b.cols) :
    "userid" ∈ colNames (addMissing b oc).cols := by
  rw [addMissing_cols, colNames_append]
  exact List.mem_append_left _ hub

/-- Keys of the existing table's rows survive projection and extension. -/
theorem merge_exRows_keys (e b : Table) (he : e.wf)
    (hue : "userid" ∈ colNames e.cols) (hub : "userid" ∈ colNames b.cols) :
    (((addMissing e b.cols).rows.map
        (fun r => reorderRow (addMissing e b.cols).cols r (addMissing b e.cols).cols)).map
      (keyOf (addMissing b e.cols).cols)) = e.rows.map (keyOf e.cols) := by
  rw [addMissing_rows, List.map_map, List.map_map]
  apply List.map_congr_left
  intro r hr
  simp only [Function.comp]
  rw [keyOf_reorderRow _ _ _ (userid_mem_addMissing b e.cols hub)]
  exact keyOf_addMissing e b.cols r (he.2 r hr) hue

/-- Keys of the batch's rows survive extension. -/
theorem merge_batchRows_keys (e b : Table) (hb : b.wf)
    (hub : "userid" ∈ colNames b.cols) :
    ((addMissing b e.cols).rows.map (keyOf (addMissing b e.cols).cols)) =
      b.rows.map (keyOf b.cols) := by
  rw [addMissing_rows, List.map_map]
  apply List.map_congr_left
  intro r hr
  simp only [Function.comp]
  exact keyOf_addMissing b e.cols r (hb.2 r hr) hub

theorem merge_keys_mem (e b : Table) (he : e.wf) (hb : b.wf)
    (hue : "userid" ∈ colNames e.cols) (hub : "userid" ∈ colNames b.cols) (k : Value) :
    k ∈ (mergeTables e b).rows.map (keyOf (mergeTables e b).cols) ↔
      k ∈ e.rows.map (keyOf e.cols) ∨ k ∈ b.rows.map (keyOf b.cols) := by
  have hub2 := userid_mem_addMissing b e.cols hub
  rw [show (mergeTables e b).cols = (addMissing b e.cols).cols from rfl,
    merge_rows e b hub2, mem_map_dedupLast, List.map_append, List.mem_append,
    merge_exRows_keys e b he hue hub, merge_batchRows_keys e b hb hub]

theorem merge_keys_nodup (e b : Table) (hub : "userid" ∈ colNames b.cols) :
    ((mergeTables e b).rows.map (keyOf (mergeTables e b).cols)).Nodup := by
  have hub2 := userid_mem_addMissing b e.cols hub
  rw [show (mergeTables e b).cols = (addMissing b e.cols).cols from rfl,
    merge_rows e b hub2]
  exact map_dedupLast_nodup _ _

theorem merge_wf (e b : Table) (he : e.wf) (hb : b.wf) : (mergeTables e b).wf := by
  constructor
  · rw [merge_cols, colNames_append]
    refine List.Nodup.append hb.1 ?_ ?_
    · exact List.Nodup.sublist (List.Sublist.map _ (List.filter_sublist e.cols)) he.1
    · intro n hnb hnm
      exact ((mem_colNames_missingCols b.cols e.cols n).mp hnm).2 hnb
  · intro r hr
    have hcols : (mergeTables e b).cols.length = (addMissing b e.cols).cols.length := rfl
    rw [hcols, addMissing_cols, List.length_append]
    have hr2 : r ∈ ((addMissing e b.cols).rows.map
        (fun r => reorderRow (addMissing e b.cols).cols r (addMissing b e.cols).cols)
        ++ (addMissing b e.cols).rows) := by
      by_cases hu : "userid" ∈ colNames (addMissing b e.cols).cols
      · exact mem_dedupLast _ _ r (by rw [merge_rows e b hu] at hr; exact hr)
      · have : (mergeTables e b).rows = _ := rfl
        simp only [mergeTables, if_neg hu] at hr
        exact hr
    rcases List.mem_append.mp hr2 with h1 | h1
    · rcases List.mem_map.mp h1 with ⟨r0, _, rfl⟩
      rw [reorderRow, List.length_map, addMissing_cols, List.length_append]
    · rw [addMissing_rows] at h1
      rcases List.mem_map.mp h1 with ⟨r0, hr0, rfl⟩
      rw [List.length_append, hb.2 r0 hr0, List.length_map]

theorem merge_userid_mem (e b : Table) (hub : "userid" ∈ colNames b.cols) :
    "userid" ∈ colNames (mergeTables e b).cols := by
  rw [merge_colNames]
  exact Or.inr hub

/-- On a key the batch contains, the merged table's row is the batch's last
row with that key, extended with the defaults for the existing-only columns. -/
theorem merge_find_batch_wins (e b : Table) (he : e.wf) (hb : b.wf)
    (hue : "userid" ∈ colNames e.cols) (hub : "userid" ∈ colNames b.cols)
    (k : Value) (hk : k ∈ b.rows.map (keyOf b.cols)) :
    (mergeTables e b).rows.find? (fun r => decide (keyOf (mergeTables e b).cols r = k)) =
      (findLast (fun r => keyOf b.cols r = k) b.rows).map
        (fun r => r ++ (missingCols b.cols e.cols).map (fun c => defaultVal c.dtype)) := by
  have hub2 := userid_mem_addMissing b e.cols hub
  rw [show (mergeTables e b).cols = (addMissing b e.cols).cols from rfl,
    merge_rows e b hub2, find?_dedupLast, findLast_append]
  have hmap : findLast (fun r => keyOf (addMissing b e.cols).cols r = k)
      (addMissing b e.cols).rows =
      (findLast (fun r => keyOf b.cols r = k) b.rows).map
        (fun r => r ++ (missingCols b.cols e.cols).map (fun c => defaultVal c.dtype)) := by
    rw [addMissing_rows]
    apply findLast_map
    intro r hr
    rw [keyOf_addMissing b e.cols r (hb.2 r hr) hub]
  rw [hmap]
  rcases List.mem_map.mp hk with ⟨r0, hr0, hkey⟩
  rcases hsome : findLast (fun r => keyOf b.cols r = k) b.rows with _ | y
  · exact absurd hkey ((findLast_eq_none _ _).mp hsome r0 hr0)
  · simp

/-- C1: merging an existing training table with a new batch keyed on
`userid` yields the union of the two column sets (a column missing from one
side is filled with 0 for numeric columns and the empty string for text
columns), the rows are the existing rows followed by the batch rows
deduplicated by key keeping the last occurrence — so on a key both sides
share the batch's row wins, at most one row per key remains, no key is
lost — and merging the same batch again leaves the key set unchanged. -/
theorem C1_merge_schema_union_last_write_wins (e b : Table)
    (he : e.wf) (hb : b.wf)
    (hue : "userid" ∈ colNames e.cols) (hub : "userid" ∈ colNames b.cols) :
    (∀ n, n ∈ colNames (mergeTables e b).cols ↔
        n ∈ colNames e.cols ∨ n ∈ colNames b.cols) ∧
    ((mergeTables e b).rows.map (keyOf (mergeTables e b).cols)).Nodup ∧
    (∀ k, k ∈ (mergeTables e b).rows.map (keyOf (mergeTables e b).cols) ↔
        k ∈ e.rows.map (keyOf e.cols) ∨ k ∈ b.rows.map (keyOf b.cols)) ∧
    (∀ k, k ∈ b.rows.map (keyOf b.cols) →
        (mergeTables e b).rows.find?
            (fun r => decide (keyOf (mergeTables e b).cols r = k)) =
          (findLast (fun r => keyOf b.cols r = k) b.rows).map
            (fun r => r ++ (missingCols b.cols e.cols).map (fun c => defaultVal c.dtype))) ∧
    (∀ k, k ∈ (mergeTables (mergeTables e b) b).rows.map
            (keyOf (mergeTables (mergeTables e b) b).cols) ↔
        k ∈ (mergeTables e b).rows.map (keyOf (mergeTables e b).cols)) := by
  refine ⟨merge_colNames e b, merge_keys_nodup e b hub,
    merge_keys_mem e b he hb hue hub,
    merge_find_batch_wins e b he hb hue hub, ?_⟩
  intro k
  rw [merge_keys_mem (mergeTables e b) b (merge_wf e b he hb) hb
    (merge_userid_mem e b hub) hub k,
    merge_keys_mem e b he hb hue hub k]
  tauto

/-- Concrete existing table for the C1 witness: columns userid, a, b. -/
def wtExisting : Table :=
  ⟨[⟨"userid", .numeric⟩, ⟨"a", .numeric⟩, ⟨"b", .numeric⟩],
   [[.num 1, .num 10, .num 20], [.num 2, .num 11, .num 21]]⟩

/-- Concrete batch for the C1 witness: columns userid, b, c. -/
def wtBatch : Table :=
  ⟨[⟨"userid", .numeric⟩, ⟨"b", .numeric⟩, ⟨"c", .object⟩],
   [[.num 2, .num 99, .str "x"], [.num 3, .num 88, .str "y"]]⟩

/-- Witness for C1 at concrete tables with columns userid,a,b and userid,b,c. -/
theorem C1_merge_schema_union_last_write_wins_witness :
    (wtExisting.wf ∧ wtBatch.wf ∧
      "userid" ∈ colNames wtExisting.cols ∧ "userid" ∈ colNames wtBatch.cols) ∧
    ((∀ n, n ∈ colNames (mergeTables wtExisting wtBatch).cols ↔
        n ∈ colNames wtExisting.cols ∨ n ∈ colNames wtBatch.cols) ∧
    ((mergeTables wtExisting wtBatch).rows.map
        (keyOf (mergeTables wtExisting wtBatch).cols)).Nodup ∧
    (∀ k, k ∈ (mergeTables wtExisting wtBatch).rows.map
            (keyOf (mergeTables wtExisting wtBatch).cols) ↔
        k ∈ wtExisting.rows.map (keyOf wtExisting.cols) ∨
          k ∈ wtBatch.rows.map (keyOf wtBatch.cols)) ∧
    (∀ k, k ∈ wtBatch.rows.map (keyOf wtBatch.cols) →
        (mergeTables wtExisting wtBatch).rows.find?
            (fun r => decide (keyOf (mergeTables wtExisting wtBatch).cols r = k)) =
          (findLast (fun r => keyOf wtBatch.cols r = k) wtBatch.rows).map
            (fun r => r ++ (missingCols wtBatch.cols wtExisting.cols).map
              (fun c => defaultVal c.dtype))) ∧
    (∀ k, k ∈ (mergeTables (mergeTables wtExisting wtBatch) wtBatch).rows.map
            (keyOf (mergeTables (mergeTables wtExisting wtBatch) wtBatch).cols) ↔
        k ∈ (mergeTables wtExisting wtBatch).rows.map
            (keyOf (mergeTables wtExisting wtBatch).cols))) :=
  ⟨⟨⟨by decide, by decide⟩, ⟨by decide, by decide⟩, by decide, by decide⟩,
    C1_merge_schema_union_last_write_wins wtExisting wtBatch
      ⟨by decide, by decide⟩ ⟨by decide, by decide⟩ (by decide) (by decide)⟩

/-! ## Claim C6: merge-error fallback -/

/-- C6: when an exception is raised while merging or serializing a batch
into a training table, the existing table is left unmodified, the whole
batch is written to the fallback file named by the target's stem and the
timestamp suffix (distinct timestamps give distinct names), and the
caller is informed by the printed append-error warning. -/
theorem C6_merge_error_preserves_table_writes_fallback (stem : String)
    (target : Option Table) (batch : Table) (ts : Nat) :
    (append_or_create_csv stem target batch true ts).target = target ∧
    (append_or_create_csv stem target batch true ts).fallback =
      some (⟨stem, ts⟩, batch) ∧
    (append_or_create_csv stem target batch true ts).warned = true ∧
    (∀ ts2, (⟨stem, ts⟩ : FallbackName) = ⟨stem, ts2⟩ → ts = ts2) := by
  refine ⟨rfl, rfl, rfl, ?_⟩
  intro ts2 h
  cases h
  rfl

/-! ## Claims C3/C4/C5/C7: counters and scheduling -/

theorem capDays_review (r : BRow) : (capDays r).review = r.review := rfl

theorem filter_map_capDays (batch : List BRow) :
    (batch.map capDays).filter (fun r => hasReview r.review) =
      (batch.filter (fun r => hasReview r.review)).map capDays := by
  induction batch with
  | nil => rfl
  | cons a l ih =>
    simp only [List.map_cons, List.filter_cons, capDays_review]
    by_cases h : hasReview a.review = true <;> simp [h, ih]

theorem split_total (batch : List BRow) :
    (split_dataset batch).2.2.total = batch.length := by
  simp [split_dataset]

theorem split_with_reviews (batch : List BRow) :
    (split_dataset batch).2.2.with_reviews =
      (batch.filter (fun r => hasReview r.review)).length := by
  simp only [split_dataset, filter_map_capDays]
  rw [List.length_map]

/-- C3: each processed batch increments Model A's counter by the batch's
total row count and Model B's counter by the number of rows whose review
is present and non-empty after stripping; in particular a first batch of
3 rows on zero counters ends the cycle with counter A equal to 3 and
counter B equal to the reviewed-row count. -/
theorem C3_counter_increments_by_batch_counts (c : Counters) (batch : List BRow)
    (env : Env) (h3 : batch.length = 3) :
    (update_counters c (split_dataset batch).2.2.total
        (split_dataset batch).2.2.with_reviews).model_a =
      c.model_a + batch.length ∧
    (update_counters c (split_dataset batch).2.2.total
        (split_dataset batch).2.2.with_reviews).model_b =
      c.model_b + (batch.filter (fun r => hasReview r.review)).length ∧
    (process_new_data_after_split ⟨0, 0, none, none⟩ (split_dataset batch).2.2.total
        (split_dataset batch).2.2.with_reviews env).counters.model_a = 3 ∧
    (process_new_data_after_split ⟨0, 0, none, none⟩ (split_dataset batch).2.2.total
        (split_dataset batch).2.2.with_reviews env).counters.model_b =
      (batch.filter (fun r => hasReview r.review)).length := by
  have ht := split_total batch
  have hw := split_with_reviews batch
  have hwle : (batch.filter (fun r => hasReview r.review)).length ≤ 3 := by
    rw [← h3]
    exact List.length_filter_le _ _
  have hB3 : ¬ ((10 : Nat) ≤ (batch.filter (fun r => hasReview r.review)).length) := by
    omega
  refine ⟨by simp [update_counters, ht], by simp [update_counters, hw], ?_, ?_⟩ <;>
    simp [process_new_data_after_split, update_counters, ht, hw, h3,
      FREQ_MODEL_A, FREQ_MODEL_B, hB3]

/-- Witness batch for C3: three rows, two with non-empty reviews. -/
def wbatch3 : List BRow :=
  [⟨[("Day_1", 5)], some "good"⟩, ⟨[("Day_1", 7)], some "  "⟩,
   ⟨[("Day_1", 9)], some "bad"⟩]

/-- Witness for C3 at a concrete 3-row batch with 2 reviewed rows. -/
theorem C3_counter_increments_by_batch_counts_witness :
    wbatch3.length = 3 ∧
    ((update_counters ⟨4, 2, none, none⟩ (split_dataset wbatch3).2.2.total
        (split_dataset wbatch3).2.2.with_reviews).model_a =
      4 + wbatch3.length ∧
    (update_counters ⟨4, 2, none, none⟩ (split_dataset wbatch3).2.2.total
        (split_dataset wbatch3).2.2.with_reviews).model_b =
      2 + (wbatch3.filter (fun r => hasReview r.review)).length ∧
    (process_new_data_after_split ⟨0, 0, none, none⟩ (split_dataset wbatch3).2.2.total
        (split_dataset wbatch3).2.2.with_reviews ⟨true, true, true, true⟩).counters.model_a = 3 ∧
    (process_new_data_after_split ⟨0, 0, none, none⟩ (split_dataset wbatch3).2.2.total
        (split_dataset wbatch3).2.2.with_reviews
          ⟨true, true, true, true⟩).counters.model_b =
      (wbatch3.filter (fun r => hasReview r.review)).length) :=
  ⟨by decide,
   C3_counter_increments_by_batch_counts ⟨4, 2, none, none⟩ wbatch3
     ⟨true, true, true, true⟩ (by decide)⟩

/-- C5: when a model's counter has reached its threshold but its training
table is missing or empty, the cycle performs a skip instead of a training
invocation, leaves the counter at its incremented value, and (being a
total function) returns normally. -/
theorem C5_skip_on_missing_or_empty_training_table (c0 : Counters)
    (total wr : Nat) (env : Env)
    (hA : FREQ_MODEL_A ≤ c0.model_a + total) (hTA : env.tableA_hasData = false)
    (hB : FREQ_MODEL_B ≤ c0.model_b + wr) (hTB : env.tableB_hasData = false) :
    (Action.trainModelA ∉ (process_new_data_after_split c0 total wr env).actions ∧
     Action.skipModelA ∈ (process_new_data_after_split c0 total wr env).actions ∧
     (process_new_data_after_split c0 total wr env).counters.model_a =
       c0.model_a + total) ∧
    (Action.trainModelB ∉ (process_new_data_after_split c0 total wr env).actions ∧
     Action.skipModelB ∈ (process_new_data_after_split c0 total wr env).actions ∧
     (process_new_data_after_split c0 total wr env).counters.model_b =
       c0.model_b + wr) := by
  simp [process_new_data_after_split, update_counters, hA, hB, hTA, hTB]

/-- Witness for C5: both counters past threshold, both tables missing. -/
theorem C5_skip_on_missing_or_empty_training_table_witness :
    (FREQ_MODEL_A ≤ 18 + 5 ∧ FREQ_MODEL_B ≤ 8 + 4) ∧
    ((Action.trainModelA ∉ (process_new_data_after_split ⟨18, 8, none, none⟩ 5 4
        ⟨false, false, true, true⟩).actions ∧
      Action.skipModelA ∈ (process_new_data_after_split ⟨18, 8, none, none⟩ 5 4
        ⟨false, false, true, true⟩).actions ∧
      (process_new_data_after_split ⟨18, 8, none, none⟩ 5 4
        ⟨false, false, true, true⟩).counters.model_a = 18 + 5) ∧
     (Action.trainModelB ∉ (process_new_data_after_split ⟨18, 8, none, none⟩ 5 4
        ⟨false, false, true, true⟩).actions ∧
      Action.skipModelB ∈ (process_new_data_after_split ⟨18, 8, none, none⟩ 5 4
        ⟨false, false, true, true⟩).actions ∧
      (process_new_data_after_split ⟨18, 8, none, none⟩ 5 4
        ⟨false, false, true, true⟩).counters.model_b = 8 + 4)) :=
  ⟨⟨by decide, by decide⟩,
   C5_skip_on_missing_or_empty_training_table ⟨18, 8, none, none⟩ 5 4
     ⟨false, false, true, true⟩ (by decide) (by decide) (by decide) (by decide)⟩

/-- C4 counterexample: a batch-processing cycle in which Model A's training
is invoked and succeeds (counter 18 + 5 = 23 resets to 0) while the
last-retrain timestamps remain unset — `process_new_data` never updates a
timestamp, contradicting "on success the last-retrain timestamp is updated". -/
theorem C4_counterexample_no_timestamp_in_batch_path :
    Action.trainModelA ∈ (process_new_data_after_split ⟨18, 0, none, none⟩ 5 0
      ⟨true, true, true, true⟩).actions ∧
    (process_new_data_after_split ⟨18, 0, none, none⟩ 5 0
      ⟨true, true, true, true⟩).counters.model_a = 0 ∧
    (process_new_data_after_split ⟨18, 0, none, none⟩ 5 0
      ⟨true, true, true, true⟩).counters.last_retrain_a = none ∧
    (process_new_data_after_split ⟨18, 0, none, none⟩ 5 0
      ⟨true, true, true, true⟩).counters.last_retrain_b = none := by
  decide

/-- C4 as amended: in both code paths a model's counter is reset to zero
iff that model's training invocation completes without error (on failure it
keeps its incremented value, e.g. 23 stays 23, and 23 resets to 0 — not 3 —
on success); the last-retrain timestamp is updated on success only in the
scheduling loop's `retrain_model` path, while the batch-processing path
leaves both timestamps unchanged. -/
theorem C4_amended_reset_iff_training_success (c0 : Counters) (total wr : Nat)
    (env : Env) (c : Counters) (train_ok churn_ok : Bool) (now : Nat)
    (hA : FREQ_MODEL_A ≤ c0.model_a + total) (hTA : env.tableA_hasData = true)
    (hB : FREQ_MODEL_B ≤ c0.model_b + wr) (hTB : env.tableB_hasData = true) :
    ((process_new_data_after_split c0 total wr env).counters.model_a =
        (if env.trainA_succeeds then 0 else c0.model_a + total) ∧
     (process_new_data_after_split c0 total wr env).counters.model_b =
        (if env.trainB_succeeds then 0 else c0.model_b + wr) ∧
     ((process_new_data_after_split c0 total wr env).counters.model_a = 0 ↔
        env.trainA_succeeds = true) ∧
     ((process_new_data_after_split c0 total wr env).counters.model_b = 0 ↔
        env.trainB_succeeds = true) ∧
     (process_new_data_after_split c0 total wr env).counters.last_retrain_a =
        c0.last_retrain_a ∧
     (process_new_data_after_split c0 total wr env).counters.last_retrain_b =
        c0.last_retrain_b) ∧
    ((retrain_model .A c train_ok churn_ok now).counters =
        (if train_ok then { c with model_a := 0, last_retrain_a := some now } else c)) ∧
    ((retrain_model .B c train_ok churn_ok now).counters =
        (if train_ok then { c with model_b := 0, last_retrain_b := some now } else c)) := by
  have hApos : c0.model_a + total ≠ 0 := by
    have := hA
    simp only [FREQ_MODEL_A] at this
    omega
  have hBpos : c0.model_b + wr ≠ 0 := by
    have := hB
    simp only [FREQ_MODEL_B] at this
    omega
  refine ⟨?_, ?_, ?_⟩
  · cases hsa : env.trainA_succeeds <;> cases hsb : env.trainB_succeeds <;>
      simp [process_new_data_after_split, update_counters, hA, hB, hTA, hTB,
        hsa, hsb, hApos, hBpos]
  · cases train_ok <;> cases churn_ok <;> simp [retrain_model]
  · cases train_ok <;> cases churn_ok <;> simp [retrain_model]

/-- Witness for the amended C4: counter at 23 over threshold 20, table
present, training succeeds in the batch path; failed and successful
retrains in the scheduling-loop path. -/
theorem C4_amended_reset_iff_training_success_witness :
    (FREQ_MODEL_A ≤ 18 + 5 ∧ FREQ_MODEL_B ≤ 8 + 4) ∧
    (((process_new_data_after_split ⟨18, 8, some 1, none⟩ 5 4
        ⟨true, true, true, false⟩).counters.model_a =
        (if (true : Bool) then 0 else 18 + 5) ∧
      (process_new_data_after_split ⟨18, 8, some 1, none⟩ 5 4
        ⟨true, true, true, false⟩).counters.model_b =
        (if (false : Bool) then 0 else 8 + 4) ∧
      ((process_new_data_after_split ⟨18, 8, some 1, none⟩ 5 4
        ⟨true, true, true, false⟩).counters.model_a = 0 ↔ (true : Bool) = true) ∧
      ((process_new_data_after_split ⟨18, 8, some 1, none⟩ 5 4
        ⟨true, true, true, false⟩).counters.model_b = 0 ↔ (false : Bool) = true) ∧
      (process_new_data_after_split ⟨18, 8, some 1, none⟩ 5 4
        ⟨true, true, true, false⟩).counters.last_retrain_a = some 1 ∧
      (process_new_data_after_split ⟨18, 8, some 1, none⟩ 5 4
        ⟨true, true, true, false⟩).counters.last_retrain_b = none) ∧
     ((retrain_model .A ⟨23, 3, none, none⟩ true true 42).counters =
        (if (true : Bool) then { (⟨23, 3, none, none⟩ : Counters) with
          model_a := 0, last_retrain_a := some 42 } else ⟨23, 3, none, none⟩)) ∧
     ((retrain_model .B ⟨23, 3, none, none⟩ true true 42).counters =
        (if (true : Bool) then { (⟨23, 3, none, none⟩ : Counters) with
          model_b := 0, last_retrain_b := some 42 } else ⟨23, 3, none, none⟩))) :=
  ⟨⟨by decide, by decide⟩,
   C4_amended_reset_iff_training_success ⟨18, 8, some 1, none⟩ 5 4
     ⟨true, true, true, false⟩ ⟨23, 3, none, none⟩ true true 42
     (by decide) (by decide) (by decide) (by decide)⟩

/-- C7 counterexample: a failed retrain in the scheduling loop's
`retrain_model` triggers no prediction regeneration and no explanation
regeneration at all, contradicting "after every individual model retrain
whether it succeeded or failed, the scheduler unconditionally triggers
prediction regeneration followed by explanation/chart regeneration". -/
theorem C7_counterexample_failed_retrain_skips_regeneration :
    (retrain_model .A ⟨20, 0, none, none⟩ false true 7).actions =
      [Action.trainModelA] ∧
    Action.churnPrediction ∉
      (retrain_model .A ⟨20, 0, none, none⟩ false true 7).actions ∧
    Action.explainableAIRefresh ∉
      (retrain_model .A ⟨20, 0, none, none⟩ false true 7).actions := by
  decide

/-- C7 as amended: after every successful batch ingestion the
batch-processing path unconditionally ends with prediction regeneration,
explanation/chart regeneration for all users (`explain_user --all`), and
the full explainer refresh, regardless of whether any retraining fired or
succeeded; in the scheduling loop's individual retrain path, however,
prediction regeneration runs only when the retrain succeeded, and the
explainer refresh only when prediction regeneration also succeeded. -/
theorem C7_amended_refresh_after_ingestion_not_after_failed_retrain
    (c0 : Counters) (total wr : Nat) (env : Env)
    (m : WhichModel) (c : Counters) (train_ok churn_ok : Bool) (now : Nat) :
    [Action.churnPrediction, Action.explainAllUsers, Action.explainableAIRefresh] <:+
      (process_new_data_after_split c0 total wr env).actions ∧
    (Action.churnPrediction ∈ (retrain_model m c train_ok churn_ok now).actions ↔
      train_ok = true) ∧
    (Action.explainableAIRefresh ∈ (retrain_model m c train_ok churn_ok now).actions ↔
      (train_ok = true ∧ churn_ok = true)) := by
  refine ⟨⟨_, rfl⟩, ?_, ?_⟩ <;>
    cases train_ok <;> cases churn_ok <;> cases m <;>
      simp [retrain_model, trainAction]

/-! ## Claim C2: identifier assignment -/

theorem le_foldl_max (l : List Int) (a : Int) : a ≤ l.foldl max a := by
  induction l generalizing a with
  | nil => exact le_refl a
  | cons x xs ih => exact le_trans (le_max_left a x) (ih (max a x))

theorem mem_le_foldl_max (l : List Int) (a x : Int) (h : x ∈ l) :
    x ≤ l.foldl max a := by
  induction l generalizing a with
  | nil => cases h
  | cons y ys ih =>
    rcases List.mem_cons.mp h with rfl | h2
    · exact le_trans (le_max_right a x) (le_foldl_max ys _)
    · exact ih _ h2

theorem foldl_max_attained (l : List Int) (a : Int) :
    l.foldl max a = a ∨ l.foldl max a ∈ l := by
  induction l generalizing a with
  | nil => exact Or.inl rfl
  | cons x xs ih =>
    rcases ih (max a x) with h | h
    · rcases max_choice a x with h2 | h2
      · exact Or.inl (by rw [List.foldl_cons, h, h2])
      · refine Or.inr ?_
        rw [List.foldl_cons, h, h2]
        exact List.mem_cons_self x xs
    · exact Or.inr (List.mem_cons_of_mem x h)

theorem lt_newIdStart (main : List Int) (x : Int) (h : x ∈ main) :
    x < newIdStart main := by
  cases main with
  | nil => cases h
  | cons y ys =>
    rcases List.mem_cons.mp h with rfl | h2
    · have := le_foldl_max ys x
      simp only [newIdStart]
      omega
    · have := mem_le_foldl_max ys y x h2
      simp only [newIdStart]
      omega

theorem newIdStart_attained (main : List Int) (hne : main ≠ []) :
    ∃ x ∈ main, newIdStart main = x + 1 := by
  cases main with
  | nil => exact absurd rfl hne
  | cons y ys =>
    rcases foldl_max_attained ys y with h | h
    · exact ⟨y, List.mem_cons_self y ys, by simp [newIdStart, h]⟩
    · exact ⟨ys.foldl max y, List.mem_cons_of_mem y h, by simp [newIdStart]⟩

theorem mem_assignIds (main : List Int) (n : Nat) (y : Int) :
    y ∈ assignIds main n ↔ ∃ i : Nat, i < n ∧ newIdStart main + (i : Int) = y := by
  simp only [assignIds, List.mem_map, List.mem_range]

theorem assignIds_pairwise (main : List Int) (n : Nat) :
    (assignIds main n).Pairwise (· < ·) :=
  List.Pairwise.map (fun i : Nat => newIdStart main + (i : Int))
    (fun i j hij => by
      show newIdStart main + (i : Int) < newIdStart main + (j : Int)
      omega)
    (List.pairwise_lt_range n)

theorem assignIds_gt_main (main : List Int) (n : Nat) (x : Int) (hx : x ∈ main)
    (y : Int) (hy : y ∈ assignIds main n) : x < y := by
  rcases (mem_assignIds main n y).mp hy with ⟨i, _, hiy⟩
  have := lt_newIdStart main x hx
  omega

theorem runIngest_spec (main : List Int) (bs : List (List (Option Int))) :
    (runIngest main bs).1 = main ++ ((runIngest main bs).2).flatten ∧
    (∀ x ∈ main, ∀ y ∈ ((runIngest main bs).2).flatten, x < y) ∧
    ((runIngest main bs).2).flatten.Pairwise (· < ·) := by
  induction bs generalizing main with
  | nil => simp [runIngest]
  | cons b bs ih =>
    obtain ⟨ih1, ih2, ih3⟩ := ih (main ++ assignIds main b.length)
    have hstep : runIngest main (b :: bs) =
        ((runIngest (main ++ assignIds main b.length) bs).1,
          assignIds main b.length ::
            (runIngest (main ++ assignIds main b.length) bs).2) := rfl
    rw [hstep]
    refine ⟨?_, ?_, ?_⟩
    · simp only [List.flatten_cons]
      rw [ih1, List.append_assoc]
    · intro x hx y hy
      simp only [List.flatten_cons, List.mem_append] at hy
      rcases hy with hy | hy
      · exact assignIds_gt_main main b.length x hx y hy
      · exact ih2 x (List.mem_append_left _ hx) y hy
    · simp only [List.flatten_cons]
      rw [List.pairwise_append]
      refine ⟨assignIds_pairwise main b.length, ih3, ?_⟩
      intro a ha y hy
      exact ih2 a (List.mem_append_right _ ha) y hy

/-- C2: ingestion discards any userids supplied in the batch (the assigned
ids depend only on the batch's row count), assigns one fresh id per row as
the contiguous range starting at max(existing ids) + 1 when the main
dataset is non-empty and at the base 2000 when it is absent or empty; and
across any sequence of batches the assigned ids are strictly increasing —
hence unique and strictly above every previously present id. -/
theorem C2_fresh_ids_contiguous_unique_monotonic (main : List Int)
    (b : List (Option Int)) (bs : List (List (Option Int))) (hne : main ≠ []) :
    (ingestIds main b).2 =
      (List.range b.length).map (fun i : Nat => newIdStart main + (i : Int)) ∧
    (ingestIds main b).2.length = b.length ∧
    newIdStart [] = 2000 ∧
    (∃ x ∈ main, newIdStart main = x + 1) ∧
    (∀ x ∈ main, x < newIdStart main) ∧
    ((runIngest main bs).2).flatten.Pairwise (· < ·) ∧
    (∀ x ∈ main, ∀ y ∈ ((runIngest main bs).2).flatten, x < y) :=
  ⟨rfl,
    by
      show (assignIds main b.length).length = b.length
      simp only [assignIds]
      rw [List.length_map, List.length_range],
    rfl,
    newIdStart_attained main hne, fun x hx => lt_newIdStart main x hx,
    (runIngest_spec main bs).2.2, (runIngest_spec main bs).2.1⟩

/-- Witness for C2: main dataset with ids 2000 and 2005, a 2-row batch
carrying its own ids (which are discarded), then two further batches. -/
theorem C2_fresh_ids_contiguous_unique_monotonic_witness :
    ([(2000 : Int), 2005] ≠ []) ∧
    ((ingestIds [(2000 : Int), 2005] [some 7, none]).2 =
      (List.range 2).map (fun i : Nat => newIdStart [(2000 : Int), 2005] + (i : Int)) ∧
    (ingestIds [(2000 : Int), 2005] [some 7, none]).2.length = 2 ∧
    newIdStart [] = 2000 ∧
    (∃ x ∈ [(2000 : Int), 2005], newIdStart [(2000 : Int), 2005] = x + 1) ∧
    (∀ x ∈ [(2000 : Int), 2005], x < newIdStart [(2000 : Int), 2005]) ∧
    ((runIngest [(2000 : Int), 2005] [[none], [none, none]]).2).flatten.Pairwise
      (· < ·) ∧
    (∀ x ∈ [(2000 : Int), 2005],
      ∀ y ∈ ((runIngest [(2000 : Int), 2005] [[none], [none, none]]).2).flatten,
        x < y)) :=
  ⟨by decide,
   C2_fresh_ids_contiguous_unique_monotonic [(2000 : Int), 2005] [some 7, none]
     [[none], [none, none]] (by decide)⟩

/-! ## Claim C10: Day_ capping -/

/-- C10: `split_dataset` caps every Day_ column value at 300 before the
batch reaches either model training table, while the authoritative main
dataset keeps the original uncapped values; hence a Day_ value above 300
disagrees between the training tables (300) and the main dataset (v). -/
theorem C10_day_columns_capped_only_in_training_tables
    (batch main : List BRow) (r : BRow) (hr : r ∈ batch)
    (name : String) (v : Int) (hc : (name, v) ∈ r.cells)
    (hday : strStartsWith "Day_" name = true) (hv : 300 < v) :
    (split_dataset batch).1 = batch.map (fun r => { capDays r with review := none }) ∧
    (split_dataset batch).2.1 = (batch.filter (fun r => hasReview r.review)).map capDays ∧
    (name, min v 300) ∈ (capDays r).cells ∧
    min v 300 = 300 ∧
    r ∈ ingest_main_rows main batch ∧
    (name, v) ∈ r.cells ∧
    (300 : Int) ≠ v := by
  refine ⟨?_, ?_, ?_, min_eq_right hv.le, List.mem_append_right main hr, hc,
    ne_of_lt hv⟩
  · simp only [split_dataset, List.map_map]
    rfl
  · simp only [split_dataset, filter_map_capDays]
  · have hm := List.mem_map_of_mem
      (fun c : String × Int =>
        if strStartsWith "Day_" c.1 = true then (c.1, min c.2 300) else c) hc
    simpa [capDays, capDayCells, hday] using hm

/-- Witness for C10: a 2-row batch whose first row has Day_3 = 400. -/
theorem C10_day_columns_capped_only_in_training_tables_witness :
    ((⟨[("Day_3", 400)], some "ok"⟩ : BRow) ∈
        [(⟨[("Day_3", 400)], some "ok"⟩ : BRow), ⟨[("Day_3", 5)], none⟩] ∧
      ("Day_3", (400 : Int)) ∈ (⟨[("Day_3", 400)], some "ok"⟩ : BRow).cells ∧
      strStartsWith "Day_" "Day_3" = true ∧ (300 : Int) < 400) ∧
    ((split_dataset [(⟨[("Day_3", 400)], some "ok"⟩ : BRow), ⟨[("Day_3", 5)], none⟩]).1 =
      [(⟨[("Day_3", 400)], some "ok"⟩ : BRow), ⟨[("Day_3", 5)], none⟩].map
        (fun r => { capDays r with review := none }) ∧
    (split_dataset [(⟨[("Day_3", 400)], some "ok"⟩ : BRow), ⟨[("Day_3", 5)], none⟩]).2.1 =
      ([(⟨[("Day_3", 400)], some "ok"⟩ : BRow), ⟨[("Day_3", 5)], none⟩].filter
        (fun r => hasReview r.review)).map capDays ∧
    ("Day_3", min (400 : Int) 300) ∈ (capDays ⟨[("Day_3", 400)], some "ok"⟩).cells ∧
    min (400 : Int) 300 = 300 ∧
    (⟨[("Day_3", 400)], some "ok"⟩ : BRow) ∈
      ingest_main_rows [⟨[("Day_1", 1)], none⟩]
        [(⟨[("Day_3", 400)], some "ok"⟩ : BRow), ⟨[("Day_3", 5)], none⟩] ∧
    ("Day_3", (400 : Int)) ∈ (⟨[("Day_3", 400)], some "ok"⟩ : BRow).cells ∧
    (300 : Int) ≠ 400) :=
  ⟨⟨by decide, by decide, by decide, by decide⟩,
   C10_day_columns_capped_only_in_training_tables
     [⟨[("Day_3", 400)], some "ok"⟩, ⟨[("Day_3", 5)], none⟩]
     [⟨[("Day_1", 1)], none⟩] ⟨[("Day_3", 400)], some "ok"⟩ (by decide)
     "Day_3" 400 (by decide) (by decide) (by decide)⟩

/-! ## Claim C8: reindex identifier map -/

theorem assignNew_fst (os : List Int) (next : Int) :
    (assignNew os next).map Prod.fst = os := by
  induction os generalizing next with
  | nil => rfl
  | cons o os ih => simp [assignNew, ih]

theorem assignNew_snd (os : List Int) (next : Int) :
    (assignNew os next).map Prod.snd =
      (List.range os.length).map (fun i : Nat => next + (i : Int)) := by
  induction os generalizing next with
  | nil => rfl
  | cons o os ih =>
    simp only [assignNew, List.map_cons, ih, List.length_cons]
    rw [List.range_succ_eq_map]
    simp only [List.map_cons, List.map_map, Nat.cast_zero, add_zero]
    congr 1
    apply List.map_congr_left
    intro i _
    simp only [Function.comp, Nat.succ_eq_add_one]
    push_cast
    ring

theorem mem_assignNew (os : List Int) (next : Int) (p : Int × Int)
    (h : p ∈ assignNew os next) :
    p.1 ∈ os ∧ next ≤ p.2 ∧ p.2 < next + (os.length : Int) := by
  induction os generalizing next with
  | nil => cases h
  | cons o os ih =>
    rcases List.mem_cons.mp h with h1 | h1
    · subst h1
      refine ⟨List.mem_cons_self _ _, le_refl _, ?_⟩
      simp only [List.length_cons]
      push_cast
      omega
    · obtain ⟨hm, hle, hlt⟩ := ih (next + 1) h1
      refine ⟨List.mem_cons_of_mem _ hm, by omega, ?_⟩
      simp only [List.length_cons]
      push_cast
      omega

theorem assignNew_pairwise (os : List Int) (next : Int)
    (hs : os.Pairwise (· < ·)) :
    (assignNew os next).Pairwise (fun p q => p.1 < q.1 ∧ p.2 < q.2) := by
  induction os generalizing next with
  | nil => exact List.Pairwise.nil
  | cons o os ih =>
    rw [List.pairwise_cons] at hs
    refine List.Pairwise.cons ?_ (ih (next + 1) hs.2)
    intro q hq
    obtain ⟨hq1, hq2, _⟩ := mem_assignNew os (next + 1) q hq
    exact ⟨hs.1 q.1 hq1, by omega⟩

theorem idMapGet_mem (m : List (Int × Int)) (hnd : (m.map Prod.fst).Nodup)
    (p : Int × Int) (hp : p ∈ m) : idMapGet m p.1 = p.2 := by
  induction m with
  | nil => cases hp
  | cons q m ih =>
    rw [List.map_cons, List.nodup_cons] at hnd
    rcases List.mem_cons.mp hp with h1 | h1
    · subst h1
      simp [idMapGet, List.find?_cons]
    · have hne : (q.1 == p.1) = false := by
        rw [beq_eq_false_iff_ne]
        intro he
        exact hnd.1 (he ▸ List.mem_map_of_mem Prod.fst h1)
      simp only [idMapGet, List.find?_cons, hne]
      exact ih hnd.2 h1

theorem idMapGet_not_mem (m : List (Int × Int)) (x : Int)
    (hx : x ∉ m.map Prod.fst) : idMapGet m x = x := by
  have hnone : m.find? (fun p => p.1 == x) = none := by
    rw [List.find?_eq_none]
    intro q hq hbeq
    exact hx (eq_of_beq hbeq ▸ List.mem_map_of_mem Prod.fst hq)
  simp [idMapGet, hnone]

theorem invMap_fst (m : List (Int × Int)) :
    (invMap m).map Prod.fst = m.map Prod.snd := by
  simp [invMap, List.map_map, Function.comp]

theorem idMapGet_roundtrip (m : List (Int × Int))
    (hfst : (m.map Prod.fst).Nodup) (hsnd : (m.map Prod.snd).Nodup)
    (x : Int) (hx : x ∈ m.map Prod.fst) :
    idMapGet (invMap m) (idMapGet m x) = x := by
  rcases List.mem_map.mp hx with ⟨p, hp, rfl⟩
  rw [idMapGet_mem m hfst p hp]
  have hpinv : (p.2, p.1) ∈ invMap m :=
    List.mem_map_of_mem (fun r => (r.2, r.1)) hp
  have hinv := idMapGet_mem (invMap m)
    (by rw [invMap_fst]; exact hsnd) (p.2, p.1) hpinv
  exact hinv

theorem build_olds_nodup (ids : List Int) :
    (List.insertionSort (fun a b => a ≤ b) ids.dedup).Nodup :=
  ((List.perm_insertionSort _ _).nodup_iff).mpr (List.nodup_dedup ids)

theorem build_olds_sorted (ids : List Int) :
    (List.insertionSort (fun a b => a ≤ b) ids.dedup).Sorted (· < ·) :=
  List.Sorted.lt_of_le (List.sorted_insertionSort _ _) (build_olds_nodup ids)

theorem build_olds_mem (ids : List Int) (x : Int) :
    x ∈ List.insertionSort (fun a b => a ≤ b) ids.dedup ↔ x ∈ ids :=
  (List.mem_insertionSort _).trans List.mem_dedup

theorem build_id_map_fst (ids : List Int) :
    (build_id_map ids).map Prod.fst =
      List.insertionSort (fun a b => a ≤ b) ids.dedup :=
  assignNew_fst _ _

theorem build_id_map_fst_nodup (ids : List Int) :
    ((build_id_map ids).map Prod.fst).Nodup := by
  rw [build_id_map_fst]
  exact build_olds_nodup ids

theorem build_id_map_snd (ids : List Int) :
    (build_id_map ids).map Prod.snd =
      (List.range ids.dedup.length).map (fun i : Nat => START_ID + (i : Int)) := by
  rw [build_id_map, assignNew_snd, (List.perm_insertionSort _ _).length_eq]

theorem build_id_map_snd_nodup (ids : List Int) :
    ((build_id_map ids).map Prod.snd).Nodup := by
  rw [build_id_map_snd]
  refine List.Nodup.map ?_ (List.nodup_range _)
  intro a b hab
  simp only at hab
  omega

/-- C8 counterexample: with main-dataset ids `[3000]` the map is
`{3000 ↦ 2000}`; remapping the column `[2000]` (an identifier not in the
map) passes 2000 through unchanged, but the inverse map then sends it to
3000, so the round trip does not restore the original identifiers. -/
theorem C8_counterexample_roundtrip_moves_unmapped_id :
    remap_userid_col (invMap (build_id_map [3000]))
        (remap_userid_col (build_id_map [3000]) [2000]) = [3000] ∧
    [(3000 : Int)] ≠ [(2000 : Int)] := by
  decide

/-- C8 as amended: `build_id_map` sorts the distinct main-dataset ids
ascending and assigns consecutive new ids from the base 2000, giving an
order-preserving bijection of the n old ids onto [2000, 2000+n): its keys
are exactly the dataset's ids without duplicates and strictly ascending,
its values are exactly 2000..2000+n-1 in step with the keys, every mapped
id lands in [2000, 2000+n), identifiers not in the map pass through
remapping unchanged, and applying the map then the inverse map restores
any identifier column drawn from the dataset's ids exactly (an identifier
outside the dataset that lies inside [2000, 2000+n) can be moved by the
round trip, as the counterexample shows). -/
theorem C8_amended_reindex_map_order_preserving_bijection (ids : List Int)
    (x : Int) (col : List Int) (hcol : ∀ y ∈ col, y ∈ ids) (hx : x ∉ ids) :
    ((build_id_map ids).map Prod.fst).Nodup ∧
    (∀ z, z ∈ (build_id_map ids).map Prod.fst ↔ z ∈ ids) ∧
    ((build_id_map ids).map Prod.fst).Sorted (· < ·) ∧
    ((build_id_map ids).map Prod.snd =
      (List.range ids.dedup.length).map (fun i : Nat => START_ID + (i : Int))) ∧
    ((build_id_map ids).Pairwise (fun p q => p.1 < q.1 ∧ p.2 < q.2)) ∧
    (∀ y ∈ ids, START_ID ≤ idMapGet (build_id_map ids) y ∧
      idMapGet (build_id_map ids) y < START_ID + (ids.dedup.length : Int)) ∧
    idMapGet (build_id_map ids) x = x ∧
    remap_userid_col (invMap (build_id_map ids))
        (remap_userid_col (build_id_map ids) col) = col := by
  refine ⟨build_id_map_fst_nodup ids, ?_, ?_, build_id_map_snd ids, ?_, ?_, ?_, ?_⟩
  · intro z
    rw [build_id_map_fst]
    exact build_olds_mem ids z
  · rw [build_id_map_fst]
    exact build_olds_sorted ids
  · exact assignNew_pairwise _ _ (build_olds_sorted ids)
  · intro y hy
    have hmem : y ∈ (build_id_map ids).map Prod.fst := by
      rw [build_id_map_fst, build_olds_mem]
      exact hy
    rcases List.mem_map.mp hmem with ⟨p, hp, rfl⟩
    rw [idMapGet_mem _ (build_id_map_fst_nodup ids) p hp]
    have := mem_assignNew _ START_ID p hp
    rw [(List.perm_insertionSort (fun a b => a ≤ b) ids.dedup).length_eq] at this
    exact ⟨this.2.1, this.2.2⟩
  · apply idMapGet_not_mem
    rw [build_id_map_fst]
    intro hmem
    exact hx ((build_olds_mem ids x).mp hmem)
  · rw [remap_userid_col, remap_userid_col, List.map_map]
    conv_rhs => rw [← List.map_id col]
    apply List.map_congr_left
    intro y hy
    have hmem : y ∈ (build_id_map ids).map Prod.fst := by
      rw [build_id_map_fst, build_olds_mem]
      exact hcol y hy
    simp only [Function.comp_apply, id_eq]
    exact idMapGet_roundtrip _ (build_id_map_fst_nodup ids)
      (build_id_map_snd_nodup ids) y hmem

/-- Witness for the amended C8: dataset ids `[2001, 3000, 2001]`, a derived
column `[3000, 2001]`, and the unmapped id 5. -/
theorem C8_amended_reindex_map_order_preserving_bijection_witness :
    ((∀ y ∈ [(3000 : Int), 2001], y ∈ [(2001 : Int), 3000, 2001]) ∧
      (5 : Int) ∉ [(2001 : Int), 3000, 2001]) ∧
    (((build_id_map [(2001 : Int), 3000, 2001]).map Prod.fst).Nodup ∧
    (∀ z, z ∈ (build_id_map [(2001 : Int), 3000, 2001]).map Prod.fst ↔
      z ∈ [(2001 : Int), 3000, 2001]) ∧
    ((build_id_map [(2001 : Int), 3000, 2001]).map Prod.fst).Sorted (· < ·) ∧
    ((build_id_map [(2001 : Int), 3000, 2001]).map Prod.snd =
      (List.range [(2001 : Int), 3000, 2001].dedup.length).map
        (fun i : Nat => START_ID + (i : Int))) ∧
    ((build_id_map [(2001 : Int), 3000, 2001]).Pairwise
      (fun p q => p.1 < q.1 ∧ p.2 < q.2)) ∧
    (∀ y ∈ [(2001 : Int), 3000, 2001],
      START_ID ≤ idMapGet (build_id_map [(2001 : Int), 3000, 2001]) y ∧
      idMapGet (build_id_map [(2001 : Int), 3000, 2001]) y <
        START_ID + ([(2001 : Int), 3000, 2001].dedup.length : Int)) ∧
    idMapGet (build_id_map [(2001 : Int), 3000, 2001]) 5 = 5 ∧
    remap_userid_col (invMap (build_id_map [(2001 : Int), 3000, 2001]))
        (remap_userid_col (build_id_map [(2001 : Int), 3000, 2001])
          [(3000 : Int), 2001]) = [(3000 : Int), 2001]) :=
  ⟨⟨by decide, by decide⟩,
   C8_amended_reindex_map_order_preserving_bijection [(2001 : Int), 3000, 2001]
     5 [(3000 : Int), 2001] (by decide) (by decide)⟩

/-! ## Claim C9: explanation remap safety -/

theorem dirGet_cons (p : Int × ExpFile) (d : ExpDir) (q : Int) :
    dirGet (p :: d) q = if p.1 = q then some p.2 else dirGet d q := by
  simp only [dirGet, List.find?_cons]
  by_cases h : p.1 = q
  · simp [h]
  · have hb : (p.1 == q) = false := by
      rw [beq_eq_false_iff_ne]
      exact h
    simp [hb, h]

theorem dirErase_cons (p : Int × ExpFile) (d : ExpDir) (n : Int) :
    dirErase (p :: d) n = if p.1 = n then dirErase d n else p :: dirErase d n := by
  simp only [dirErase, List.filter_cons]
  by_cases h : p.1 = n
  · simp [h]
  · have hb : (p.1 == n) = false := by
      rw [beq_eq_false_iff_ne]
      exact h
    simp [hb, h]

theorem dirGet_erase (d : ExpDir) (n q : Int) :
    dirGet (dirErase d n) q = if q = n then none else dirGet d q := by
  induction d with
  | nil =>
    simp only [dirErase, List.filter_nil]
    by_cases h : q = n <;> simp [h, dirGet]
  | cons p d ih =>
    rw [dirErase_cons]
    by_cases hpn : p.1 = n
    · rw [if_pos hpn, ih, dirGet_cons]
      by_cases hqn : q = n
      · simp [hqn]
      · have hpq : ¬ (p.1 = q) := by
          rw [hpn]
          exact fun h => hqn h.symm
        simp [hqn, hpq]
    · rw [if_neg hpn, dirGet_cons, dirGet_cons, ih]
      by_cases hpq : p.1 = q
      · have hqn : ¬ (q = n) := by
          rw [← hpq]
          exact hpn
        simp [hpq, hqn]
      · simp [hpq]

theorem dirGet_append (d1 d2 : ExpDir) (q : Int) :
    dirGet (d1 ++ d2) q =
      match dirGet d1 q with
      | some f => some f
      | none => dirGet d2 q := by
  induction d1 with
  | nil => simp [dirGet]
  | cons p d ih =>
    rw [List.cons_append, dirGet_cons, dirGet_cons]
    by_cases hpq : p.1 = q
    · simp [hpq]
    · simp [hpq, ih]

theorem dirGet_set (d : ExpDir) (n q : Int) (f : ExpFile) :
    dirGet (dirSet d n f) q = if q = n then some f else dirGet d q := by
  rw [dirSet, dirGet_append, dirGet_erase]
  by_cases hqn : q = n
  · simp [hqn, dirGet_cons]
  · have hnq : ¬ ((n : Int) = q) := fun h => hqn h.symm
    cases hdq : dirGet d q <;> simp [hqn, hnq, dirGet_cons, dirGet]

theorem lookupNew_mem_snd (m : List (Int × Int)) (x t : Int)
    (h : lookupNew m x = some t) : t ∈ m.map Prod.snd := by
  rw [lookupNew] at h
  cases hf : m.find? (fun p => p.1 == x) with
  | none => rw [hf] at h; cases h
  | some pr =>
    rw [hf] at h
    injection h with h
    exact h ▸ List.mem_map_of_mem Prod.snd (List.mem_of_find?_eq_some hf)

theorem remapStep_none (m : List (Int × Int)) (d : ExpDir) (p : Int)
    (h : dirGet d p = none) : remapStep m d p = (d, []) := by
  simp [remapStep, h]

theorem remapStep_unmapped (m : List (Int × Int)) (d : ExpDir) (p : Int)
    (f : ExpFile) (h : dirGet d p = some f)
    (h2 : lookupNew m f.user_id = none) : remapStep m d p = (d, []) := by
  simp [remapStep, h, h2]

theorem remapStep_self (m : List (Int × Int)) (d : ExpDir) (p : Int)
    (f : ExpFile) (t : Int) (h : dirGet d p = some f)
    (h2 : lookupNew m f.user_id = some t) (h3 : t = p) :
    remapStep m d p = (dirSet d p { f with user_id := t }, []) := by
  simp [remapStep, h, h2, h3]

theorem remapStep_fresh (m : List (Int × Int)) (d : ExpDir) (p : Int)
    (f : ExpFile) (t : Int) (h : dirGet d p = some f)
    (h2 : lookupNew m f.user_id = some t) (h3 : t ≠ p)
    (h4 : dirGet d t = none) :
    remapStep m d p =
      (dirSet (dirErase (dirSet d p { f with user_id := t }) p) t
        { f with user_id := t }, []) := by
  have h5 : dirGet (dirSet d p { f with user_id := t }) t = none := by
    rw [dirGet_set, if_neg h3, h4]
  simp [remapStep, h, h2, h3, h5]

theorem remapStep_collide (m : List (Int × Int)) (d : ExpDir) (p : Int)
    (f : ExpFile) (t : Int) (h : dirGet d p = some f)
    (h2 : lookupNew m f.user_id = some t) (h3 : t ≠ p)
    (h4 : (dirGet (dirSet d p { f with user_id := t }) t).isSome = true) :
    remapStep m d p =
      (dirSet (dirErase (dirErase (dirSet d p { f with user_id := t }) t) p) t
        { f with user_id := t }, [t]) := by
  simp [remapStep, h, h2, h3, h4]

theorem remapStep_deleted (m : List (Int × Int)) (d : ExpDir) (p : Int) :
    (remapStep m d p).2 = [] ∨
      ∃ f t, dirGet d p = some f ∧ lookupNew m f.user_id = some t ∧
        (remapStep m d p).2 = [t] := by
  cases hdp : dirGet d p with
  | none => exact Or.inl (by rw [remapStep_none m d p hdp])
  | some f =>
    cases hlk : lookupNew m f.user_id with
    | none => exact Or.inl (by rw [remapStep_unmapped m d p f hdp hlk])
    | some t =>
      by_cases ht : t = p
      · exact Or.inl (by rw [remapStep_self m d p f t hdp hlk ht])
      · cases hcold : dirGet (dirSet d p { f with user_id := t }) t with
        | none =>
          refine Or.inl ?_
          have h4 : dirGet d t = none := by
            rw [dirGet_set, if_neg ht] at hcold
            exact hcold
          rw [remapStep_fresh m d p f t hdp hlk ht h4]
        | some g =>
          refine Or.inr ⟨f, t, rfl, hlk, ?_⟩
          rw [remapStep_collide m d p f t hdp hlk ht (by rw [hcold]; rfl)]

theorem remap_explanations_cons (m : List (Int × Int)) (d : ExpDir)
    (p : Int) (ps : List Int) :
    remap_explanations m d (p :: ps) =
      ((remap_explanations m (remapStep m d p).1 ps).1,
        (remapStep m d p).2 ++ (remap_explanations m (remapStep m d p).1 ps).2) :=
  rfl

theorem remap_explanations_deleted_sub (m : List (Int × Int)) (glob : List Int) :
    ∀ (d : ExpDir), ∀ x ∈ (remap_explanations m d glob).2, x ∈ m.map Prod.snd := by
  induction glob with
  | nil =>
    intro d x hx
    simp [remap_explanations] at hx
  | cons p ps ih =>
    intro d x hx
    rw [remap_explanations_cons, List.mem_append] at hx
    rcases hx with hx | hx
    · rcases remapStep_deleted m d p with h0 | ⟨f, t, _, hlk, heq⟩
      · rw [h0] at hx
        cases hx
      · rw [heq] at hx
        rcases List.mem_cons.mp hx with rfl | h0
        · exact lookupNew_mem_snd m f.user_id x hlk
        · cases h0
    · exact ih _ x hx

/-- When every remapped file's new name is fresh (absent from the directory)
and the new names are pairwise distinct, `remap_explanations` deletes
nothing, each remapped file ends up under its new name with its `user_id`
field rewritten (unmapped files stay under their old name untouched), and
names outside the glob and the targets are untouched. -/
theorem remap_explanations_fresh_targets (m : List (Int × Int)) :
    ∀ (glob : List Int) (d : ExpDir),
    glob.Nodup →
    (∀ q ∈ glob, (dirGet d q).isSome = true) →
    (∀ q ∈ glob, ∀ f : ExpFile, dirGet d q = some f →
        ∀ t, lookupNew m f.user_id = some t → dirGet d t = none) →
    (∀ q ∈ glob, ∀ q2 ∈ glob, q ≠ q2 →
        ∀ f f2 : ExpFile, dirGet d q = some f → dirGet d q2 = some f2 →
        ∀ t t2, lookupNew m f.user_id = some t →
          lookupNew m f2.user_id = some t2 → t ≠ t2) →
    (remap_explanations m d glob).2 = [] ∧
    (∀ q ∈ glob, ∀ f : ExpFile, dirGet d q = some f →
        (lookupNew m f.user_id = none →
            dirGet (remap_explanations m d glob).1 q = some f) ∧
        (∀ t, lookupNew m f.user_id = some t →
            dirGet (remap_explanations m d glob).1 t =
              some { f with user_id := t })) ∧
    (∀ x : Int, x ∉ glob →
        (∀ q ∈ glob, ∀ f : ExpFile, dirGet d q = some f →
          ∀ t, lookupNew m f.user_id = some t → x ≠ t) →
        dirGet (remap_explanations m d glob).1 x = dirGet d x) := by
  intro glob
  induction glob with
  | nil =>
    intro d _ _ _ _
    refine ⟨rfl, ?_, ?_⟩
    · intro q hq
      cases hq
    · intro x _ _
      rfl
  | cons p ps ih =>
    intro d hnd hsome hfresh hdist
    rw [List.nodup_cons] at hnd
    have hqnep : ∀ q ∈ ps, q ≠ p := fun q hq he => hnd.1 (he ▸ hq)
    have hpneq : ∀ q ∈ ps, p ≠ q := fun q hq he => hnd.1 (he ▸ hq)
    obtain ⟨f, hdp⟩ := Option.isSome_iff_exists.mp
      (hsome p (List.mem_cons_self p ps))
    cases hlk : lookupNew m f.user_id with
    | none =>
      have hstep : remapStep m d p = (d, []) := remapStep_unmapped m d p f hdp hlk
      obtain ⟨ih1, ih2, ih3⟩ := ih d hnd.2
        (fun q hq => hsome q (List.mem_cons_of_mem p hq))
        (fun q hq => hfresh q (List.mem_cons_of_mem p hq))
        (fun q hq q2 hq2 =>
          hdist q (List.mem_cons_of_mem p hq) q2 (List.mem_cons_of_mem p hq2))
      refine ⟨?_, ?_, ?_⟩
      · simp only [remap_explanations_cons, hstep, List.nil_append]
        exact ih1
      · intro q hq f' hf'
        simp only [remap_explanations_cons, hstep]
        rcases List.mem_cons.mp hq with hqp | hq2
        · rw [hqp] at hf'
          rw [hqp]
          rw [hdp] at hf'
          have hff : f' = f := Option.some.inj hf'.symm
          rw [hff]
          refine ⟨?_, ?_⟩
          · intro _
            rw [ih3 p hnd.1 ?avoidp]
            · exact hdp
            case avoidp =>
              intro q0 hq0 f0 hf0 t0 ht0 hpt
              have hn := hfresh q0 (List.mem_cons_of_mem p hq0) f0 hf0 t0 ht0
              rw [← hpt] at hn
              rw [hn] at hdp
              cases hdp
          · intro t0 ht0
            rw [hlk] at ht0
            cases ht0
        · exact ih2 q hq2 f' hf'
      · intro x hx havoid
        have hx2 : x ∉ ps := fun h => hx (List.mem_cons_of_mem p h)
        simp only [remap_explanations_cons, hstep]
        exact ih3 x hx2 (fun q hq f0 hf0 t0 ht0 =>
          havoid q (List.mem_cons_of_mem p hq) f0 hf0 t0 ht0)
    | some t =>
      by_cases ht : t = p
      · rw [ht] at hlk
        have hstep : remapStep m d p =
            (dirSet d p { f with user_id := p }, []) :=
          remapStep_self m d p f p hdp hlk rfl
        have hget2 : ∀ y, dirGet (dirSet d p { f with user_id := p }) y =
            if y = p then some { f with user_id := p } else dirGet d y := by
          intro y
          rw [dirGet_set]
        obtain ⟨ih1, ih2, ih3⟩ := ih (dirSet d p { f with user_id := p }) hnd.2
          (fun q hq => by
            rw [hget2, if_neg (hqnep q hq)]
            exact hsome q (List.mem_cons_of_mem p hq))
          (fun q hq f0 hf0 t0 ht0 => by
            rw [hget2, if_neg (hqnep q hq)] at hf0
            have hn := hfresh q (List.mem_cons_of_mem p hq) f0 hf0 t0 ht0
            have htp : t0 ≠ p := by
              intro he
              rw [he] at hn
              rw [hn] at hdp
              cases hdp
            rw [hget2, if_neg htp]
            exact hn)
          (fun q hq q2 hq2 hne f0 f2 hf0 hf2 => by
            rw [hget2, if_neg (hqnep q hq)] at hf0
            rw [hget2, if_neg (hqnep q2 hq2)] at hf2
            exact hdist q (List.mem_cons_of_mem p hq) q2
              (List.mem_cons_of_mem p hq2) hne f0 f2 hf0 hf2)
        refine ⟨?_, ?_, ?_⟩
        · simp only [remap_explanations_cons, hstep, List.nil_append]
          exact ih1
        · intro q hq f' hf'
          simp only [remap_explanations_cons, hstep]
          rcases List.mem_cons.mp hq with hqp | hq2
          · rw [hqp] at hf'
            rw [hqp]
            rw [hdp] at hf'
            have hff : f' = f := Option.some.inj hf'.symm
            rw [hff]
            refine ⟨?_, ?_⟩
            · intro h0
              rw [hlk] at h0
              cases h0
            · intro t0 ht0
              rw [hlk] at ht0
              have ht0p : t0 = p := (Option.some.inj ht0).symm
              rw [ht0p]
              rw [ih3 p hnd.1 ?avoidq]
              · rw [hget2, if_pos rfl]
              case avoidq =>
                intro q0 hq0 f0 hf0 t1 ht1 hqt
                rw [hget2, if_neg (hqnep q0 hq0)] at hf0
                have hn := hfresh q0 (List.mem_cons_of_mem p hq0) f0 hf0 t1 ht1
                rw [← hqt] at hn
                rw [hn] at hdp
                cases hdp
          · refine ih2 q hq2 f' ?_
            rw [hget2, if_neg (hqnep q hq2)]
            exact hf'
        · intro x hx havoid
          have hx1 : x ≠ p := fun he => hx (he ▸ List.mem_cons_self p ps)
          have hx2 : x ∉ ps := fun h => hx (List.mem_cons_of_mem p h)
          simp only [remap_explanations_cons, hstep]
          rw [ih3 x hx2 (fun q hq f0 hf0 t0 ht0 => by
            rw [hget2, if_neg (hqnep q hq)] at hf0
            exact havoid q (List.mem_cons_of_mem p hq) f0 hf0 t0 ht0)]
          rw [hget2, if_neg hx1]
      · have hdt : dirGet d t = none :=
          hfresh p (List.mem_cons_self p ps) f hdp t hlk
        have hstep := remapStep_fresh m d p f t hdp hlk ht hdt
        have hqnet : ∀ q ∈ ps, q ≠ t := by
          intro q hq he
          have hs := hsome q (List.mem_cons_of_mem p hq)
          rw [he, hdt] at hs
          cases hs
        have hd4 : ∀ y,
            dirGet (dirSet (dirErase (dirSet d p { f with user_id := t }) p) t
              { f with user_id := t }) y =
              if y = t then some { f with user_id := t }
              else if y = p then none else dirGet d y := by
          intro y
          rw [dirGet_set, dirGet_erase, dirGet_set]
          by_cases h1 : y = t
          · simp [h1]
          · simp only [if_neg h1]
            by_cases h2 : y = p
            · simp [h2]
            · simp [h2]
        obtain ⟨ih1, ih2, ih3⟩ := ih
          (dirSet (dirErase (dirSet d p { f with user_id := t }) p) t
            { f with user_id := t }) hnd.2
          (fun q hq => by
            rw [hd4, if_neg (hqnet q hq), if_neg (hqnep q hq)]
            exact hsome q (List.mem_cons_of_mem p hq))
          (fun q hq f0 hf0 t0 ht0 => by
            rw [hd4, if_neg (hqnet q hq), if_neg (hqnep q hq)] at hf0
            have hn := hfresh q (List.mem_cons_of_mem p hq) f0 hf0 t0 ht0
            have ht0p : t0 ≠ p := by
              intro he
              rw [he] at hn
              rw [hn] at hdp
              cases hdp
            have ht0t : t0 ≠ t :=
              hdist q (List.mem_cons_of_mem p hq) p (List.mem_cons_self p ps)
                (hqnep q hq) f0 f hf0 hdp t0 t ht0 hlk
            rw [hd4, if_neg ht0t, if_neg ht0p]
            exact hn)
          (fun q hq q2 hq2 hne f0 f2 hf0 hf2 => by
            rw [hd4, if_neg (hqnet q hq), if_neg (hqnep q hq)] at hf0
            rw [hd4, if_neg (hqnet q2 hq2), if_neg (hqnep q2 hq2)] at hf2
            exact hdist q (List.mem_cons_of_mem p hq) q2
              (List.mem_cons_of_mem p hq2) hne f0 f2 hf0 hf2)
        refine ⟨?_, ?_, ?_⟩
        · simp only [remap_explanations_cons, hstep, List.nil_append]
          exact ih1
        · intro q hq f' hf'
          simp only [remap_explanations_cons, hstep]
          rcases List.mem_cons.mp hq with hqp | hq2
          · rw [hqp] at hf'
            rw [hqp]
            rw [hdp] at hf'
            have hff : f' = f := Option.some.inj hf'.symm
            rw [hff]
            refine ⟨?_, ?_⟩
            · intro h0
              rw [hlk] at h0
              cases h0
            · intro t0 ht0
              rw [hlk] at ht0
              have ht0t : t0 = t := (Option.some.inj ht0).symm
              rw [ht0t]
              have htps : t ∉ ps := fun h => (hqnet t h) rfl
              rw [ih3 t htps (fun q0 hq0 f0 hf0 t1 ht1 => by
                rw [hd4, if_neg (hqnet q0 hq0), if_neg (hqnep q0 hq0)] at hf0
                exact hdist p (List.mem_cons_self p ps) q0
                  (List.mem_cons_of_mem p hq0) (hpneq q0 hq0) f f0 hdp hf0
                  t t1 hlk ht1)]
              rw [hd4, if_pos rfl]
          · refine ih2 q hq2 f' ?_
            rw [hd4, if_neg (hqnet q hq2), if_neg (hqnep q hq2)]
            exact hf'
        · intro x hx havoid
          have hx1 : x ≠ p := fun he => hx (he ▸ List.mem_cons_self p ps)
          have hx2 : x ∉ ps := fun h => hx (List.mem_cons_of_mem p h)
          have hxt : x ≠ t := havoid p (List.mem_cons_self p ps) f hdp t hlk
          simp only [remap_explanations_cons, hstep]
          rw [ih3 x hx2 (fun q hq f0 hf0 t0 ht0 => by
            rw [hd4, if_neg (hqnet q hq), if_neg (hqnep q hq)] at hf0
            exact havoid q (List.mem_cons_of_mem p hq) f0 hf0 t0 ht0)]
          rw [hd4, if_neg hxt, if_neg hx1]

/-- C9 counterexample: reindexing the ids {2001, 2002} maps 2001 ↦ 2000 and
2002 ↦ 2001; when the glob visits user_2002.json first, its rename target
user_2001.json is occupied, so the code unlinks that file — the run
performs a deletion, and afterwards no live file holds the 2001-file's
content (payload 11): it is present under neither its old name (2001) nor
its new name (2000), contradicting "only renames or rewrites, never
deletes" and "every file stays present under its old or new name". -/
theorem C9_counterexample_collision_deletes_explanation_file :
    (remap_explanations (build_id_map [2001, 2002])
        ([(2001, ⟨2001, 11⟩), (2002, ⟨2002, 22⟩)] : ExpDir) [2002, 2001]).2 =
      [2001] ∧
    (¬ ∃ pr ∈ (remap_explanations (build_id_map [2001, 2002])
        ([(2001, ⟨2001, 11⟩), (2002, ⟨2002, 22⟩)] : ExpDir) [2002, 2001]).1,
      (Prod.snd pr).payload = 11) := by
  decide

/-- C9 as amended: the reindexer copies every explanation file into the
timestamped backup before the explanation remap mutates anything (the
backup equals the pre-remap directory); during remapping the only names it
ever deletes are rename targets — new ids in the map's range — and when no
remapped file's new name collides with a present file the run deletes
nothing and every file remains present, under its old name (unmapped
files, unchanged) or its new name (remapped files, with the embedded id
rewritten); a collided file survives only in the backup. -/
theorem C9_amended_backup_first_deletes_only_rename_targets
    (m : List (Int × Int)) (d : ExpDir) (glob : List Int)
    (hnd : glob.Nodup)
    (hsome : ∀ q ∈ glob, (dirGet d q).isSome = true)
    (hfresh : ∀ q ∈ glob, ∀ f : ExpFile, dirGet d q = some f →
        ∀ t, lookupNew m f.user_id = some t → dirGet d t = none)
    (hdist : ∀ q ∈ glob, ∀ q2 ∈ glob, q ≠ q2 →
        ∀ f f2 : ExpFile, dirGet d q = some f → dirGet d q2 = some f2 →
        ∀ t t2, lookupNew m f.user_id = some t →
          lookupNew m f2.user_id = some t2 → t ≠ t2) :
    (reindex_outputs m d glob).1 = d ∧
    (∀ (d0 : ExpDir) (glob0 : List Int),
      ∀ x ∈ (remap_explanations m d0 glob0).2, x ∈ m.map Prod.snd) ∧
    (remap_explanations m d glob).2 = [] ∧
    (∀ q ∈ glob, ∀ f : ExpFile, dirGet d q = some f →
        (lookupNew m f.user_id = none →
            dirGet (remap_explanations m d glob).1 q = some f) ∧
        (∀ t, lookupNew m f.user_id = some t →
            dirGet (remap_explanations m d glob).1 t =
              some { f with user_id := t })) :=
  ⟨rfl, fun d0 glob0 => remap_explanations_deleted_sub m glob0 d0,
    (remap_explanations_fresh_targets m glob d hnd hsome hfresh hdist).1,
    (remap_explanations_fresh_targets m glob d hnd hsome hfresh hdist).2.1⟩

/-- Witness for the amended C9: a single explanation file user_3000.json
remapped by the map {3000 ↦ 2000}; the target name 2000 is free. -/
theorem C9_amended_backup_first_deletes_only_rename_targets_witness :
    (([(3000 : Int)] : List Int).Nodup ∧
      (∀ q ∈ [(3000 : Int)],
        (dirGet ([(3000, ⟨3000, 7⟩)] : ExpDir) q).isSome = true) ∧
      (∀ q ∈ [(3000 : Int)], ∀ f : ExpFile,
        dirGet ([(3000, ⟨3000, 7⟩)] : ExpDir) q = some f →
        ∀ t, lookupNew (build_id_map [3000]) f.user_id = some t →
          dirGet ([(3000, ⟨3000, 7⟩)] : ExpDir) t = none)) ∧
    ((reindex_outputs (build_id_map [3000]) ([(3000, ⟨3000, 7⟩)] : ExpDir)
        [3000]).1 = ([(3000, ⟨3000, 7⟩)] : ExpDir) ∧
    (∀ (d0 : ExpDir) (glob0 : List Int),
      ∀ x ∈ (remap_explanations (build_id_map [3000]) d0 glob0).2,
        x ∈ (build_id_map [3000]).map Prod.snd) ∧
    (remap_explanations (build_id_map [3000]) ([(3000, ⟨3000, 7⟩)] : ExpDir)
        [3000]).2 = [] ∧
    (∀ q ∈ [(3000 : Int)], ∀ f : ExpFile,
        dirGet ([(3000, ⟨3000, 7⟩)] : ExpDir) q = some f →
        (lookupNew (build_id_map [3000]) f.user_id = none →
            dirGet (remap_explanations (build_id_map [3000])
              ([(3000, ⟨3000, 7⟩)] : ExpDir) [3000]).1 q = some f) ∧
        (∀ t, lookupNew (build_id_map [3000]) f.user_id = some t →
            dirGet (remap_explanations (build_id_map [3000])
              ([(3000, ⟨3000, 7⟩)] : ExpDir) [3000]).1 t =
              some { f with user_id := t }))) := by
  have hfresh : ∀ q ∈ [(3000 : Int)], ∀ f : ExpFile,
      dirGet ([(3000, ⟨3000, 7⟩)] : ExpDir) q = some f →
      ∀ t, lookupNew (build_id_map [3000]) f.user_id = some t →
        dirGet ([(3000, ⟨3000, 7⟩)] : ExpDir) t = none := by
    intro q hq f hf t htl
    have hq3 : q = 3000 := by simpa using hq
    subst hq3
    rw [(by decide : dirGet ([(3000, ⟨3000, 7⟩)] : ExpDir) 3000 =
      some ⟨3000, 7⟩)] at hf
    obtain rfl : (⟨3000, 7⟩ : ExpFile) = f := Option.some.inj hf
    rw [(by decide : lookupNew (build_id_map [3000])
      (⟨3000, 7⟩ : ExpFile).user_id = some 2000)] at htl
    obtain rfl : (2000 : Int) = t := Option.some.inj htl
    decide
  have hdist : ∀ q ∈ [(3000 : Int)], ∀ q2 ∈ [(3000 : Int)], q ≠ q2 →
      ∀ f f2 : ExpFile, dirGet ([(3000, ⟨3000, 7⟩)] : ExpDir) q = some f →
      dirGet ([(3000, ⟨3000, 7⟩)] : ExpDir) q2 = some f2 →
      ∀ t t2, lookupNew (build_id_map [3000]) f.user_id = some t →
        lookupNew (build_id_map [3000]) f2.user_id = some t2 → t ≠ t2 := by
    intro q hq q2 hq2 hne
    have h1 : q = 3000 := by simpa using hq
    have h2 : q2 = 3000 := by simpa using hq2
    exact (hne (h1.trans h2.symm)).elim
  exact ⟨⟨by decide, by decide, hfresh⟩,
    C9_amended_backup_first_deletes_only_rename_targets (build_id_map [3000])
      ([(3000, ⟨3000, 7⟩)] : ExpDir) [3000] (by decide) (by decide)
      hfresh hdist⟩

end RetentionAI
